import Mathlib

/-! The agreement event loop of `server/serve.go`.

A shallow embedding of the single-threaded event loop `serve` and of its
helpers `initPeriodState` and `handleHalt`.

* Go maps are association lists with a distinguished nil map: reading a nil
  map gives the zero value, writing to it is a runtime fault.
* `int64` values are integers; `++` wraps around at `2^63`.
* A handler that faults (index out of range, nil dereference, write to a nil
  map) returns `none`.
* Outbound RPCs, timer restarts and logging do not touch the server state
  and are left out; a reply sent on a response channel is returned as a value.
-/

namespace Algorand

/-! ## Machine integers -/

/-- Largest `int64`. -/
def maxInt64 : Int := 9223372036854775807

/-- Smallest `int64`. -/
def minInt64 : Int := -9223372036854775808

/-- Two's-complement reduction of an integer to the `int64` range. -/
def wrap64 (x : Int) : Int := (x + 2 ^ 63) % 2 ^ 64 - 2 ^ 63

/-- Go `x++` on an `int64`. -/
def incr64 (x : Int) : Int := wrap64 (x + 1)

/-- The integer is representable as an `int64`. -/
def fitsInt64 (x : Int) : Prop := minInt64 ≤ x ∧ x ≤ maxInt64

instance (x : Int) : Decidable (fitsInt64 x) := by
  unfold fitsInt64; infer_instance

/-! ## `strconv` -/

/-- Value of a decimal digit, `none` for any other character. -/
def digitVal (c : Char) : Option Nat :=
  if 48 ≤ c.toNat ∧ c.toNat ≤ 57 then some (c.toNat - 48) else none

/-- The largest `uint64`, the value `strconv.ParseUint` returns with a range
error. -/
def maxUint64 : Nat := 18446744073709551615

/-- The digit loop of `strconv.ParseUint(s, 10, 64)`, with `acc` the number
read so far. A character that is not a decimal digit is a syntax error,
`none`. A digit that makes the number overflow `uint64` ends the loop at once
with a range error and the value `maxUint64`, whatever follows it: the test is
`n >= cutoff` with `cutoff = maxUint64/10 + 1`, then `n*10 + d > maxUint64`. -/
def parseDigits : List Char → Nat → Option Nat
  | [], acc => some acc
  | c :: cs, acc =>
    match digitVal c with
    | none => none
    | some d =>
      if maxUint64 / 10 + 1 ≤ acc then some maxUint64
      else if maxUint64 < acc * 10 + d then some maxUint64
      else parseDigits cs (acc * 10 + d)

/-- The value of `strconv.ParseInt(s, 10, 64)` with the error dropped, as in
`votePeriod, _ := strconv.ParseInt(...)`: `0` on a syntax error, the nearest
bound on a range error. The sign is taken off, the digits go through
`ParseUint`, and a range error of `ParseUint` is passed on with the value
`maxUint64`, which is beyond both bounds. -/
def strconvParseInt (s : String) : Int :=
  match s.data with
  | [] => 0
  | c :: cs =>
    let neg : Bool := decide (c = '-')
    let body : List Char := if c = '+' ∨ c = '-' then cs else c :: cs
    match body with
    | [] => 0
    | _ :: _ =>
      match parseDigits body 0 with
      | none => 0
      | some un =>
        if !neg && decide (2 ^ 63 ≤ un) then maxInt64
        else if neg && decide (2 ^ 63 < un) then minInt64
        else if neg then - (un : Int) else (un : Int)

/-- The value of `strconv.FormatInt(x, 10)`. -/
def strconvFormatInt (x : Int) : String := toString x

/-! ## Go maps -/

/-- A Go `map[string]α`. `nil` is the zero value of the map type (reads give
the zero value, writes fault); `alloc l` is a map made by `make`, holding the
entries `l`. -/
inductive GoMap (α : Type) where
  | nil : GoMap α
  | alloc (entries : List (String × α)) : GoMap α
deriving DecidableEq, Repr

/-- Replace the value stored under `k`, or add the entry when `k` is new. -/
def setEntry {α : Type} : List (String × α) → String → α → List (String × α)
  | [], k, v => [(k, v)]
  | (k', v') :: t, k, v => if k' = k then (k, v) :: t else (k', v') :: setEntry t k v

/-- The value stored under `k`, if any. -/
def findEntry {α : Type} : List (String × α) → String → Option α
  | [], _ => none
  | (k', v') :: t, k => if k' = k then some v' else findEntry t k

namespace GoMap

variable {α : Type}

/-- Go `make(map[string]α)`: an allocated map with no entry. -/
def make : GoMap α := alloc []

/-- The entries of the map; a nil map has none. -/
def entries : GoMap α → List (String × α)
  | nil => []
  | alloc l => l

/-- Go `v, ok := m[k]`: the value under `k`, `none` when `ok` is false. -/
def find? (m : GoMap α) (k : String) : Option α := findEntry m.entries k

/-- Go `_, ok := m[k]`: whether the key is present. -/
def contains (m : GoMap α) (k : String) : Bool := (m.find? k).isSome

/-- Go `m[k]`, with the zero value `z` of the element type for a missing key. -/
def getD (m : GoMap α) (k : String) (z : α) : α := (m.find? k).getD z

/-- Go `m[k] = v`; `none` is the fault "assignment to entry in nil map". -/
def set : GoMap α → String → α → Option (GoMap α)
  | nil, _, _ => none
  | alloc l, k, v => some (alloc (setEntry l k v))

/-- Go `len(m)`. -/
def len (m : GoMap α) : Nat := m.entries.length

/-- Go `m[k]++` on a `map[string]int64`. -/
def incr (m : GoMap Int) (k : String) : Option (GoMap Int) :=
  m.set k (incr64 (m.getD k 0))

/-- Sum of all the values of a tally map. -/
def total (m : GoMap Int) : Int := (m.entries.map Prod.snd).sum

end GoMap

/-! ## Protocol buffers messages

The generated package `pb` is not part of the sources; the messages carry the
fields the event loop reads. A message field of pointer type is an `Option`. -/

/-- A transaction, opaque to the agreement core. -/
abbrev Transaction := String

/-- A `pb.Block`: the staged transactions `Tx`, and the remaining fields kept
as one uninterpreted string. -/
structure Block where
  Tx : List Transaction
  header : String
deriving DecidableEq, Repr

/-- A `*pb.Block`; `none` is the nil pointer. -/
abbrev BlockPtr := Option Block

/-- A `pb.SIGRet`. -/
structure SIGRet where
  UserId : String
  Message : List String
  SignedMessage : String
deriving DecidableEq, Repr

/-- A `pb.VoteArgs`. -/
structure VoteArgs where
  Message : Option SIGRet
  Round : Int
  Peer : String
deriving DecidableEq, Repr

/-! ## Server state -/

/-- The three kinds of vote, `"soft"`, `"cert"` and `"next"`. -/
inductive VoteType where
  | soft
  | cert
  | next
deriving DecidableEq, Repr

/-- The vote kind named by the second payload string of a vote. -/
def VoteType.ofString (s : String) : Option VoteType :=
  if s = "soft" then some VoteType.soft
  else if s = "cert" then some VoteType.cert
  else if s = "next" then some VoteType.next
  else none

/-- The Go struct `PeriodState`. -/
structure PeriodState where
  proposedValues : GoMap String
  valueToBlock : GoMap BlockPtr
  nextVotes : GoMap Int
  softVotes : GoMap Int
  certVotes : GoMap Int
  haveNextVoted : GoMap Bool
  haveSoftVoted : GoMap Bool
  haveCertVoted : GoMap Bool
  myCertVote : String
  startingValue : String
  period : Int
deriving DecidableEq, Repr

namespace PeriodState

/-- The zero value `PeriodState{}`: nil maps, empty strings, period 0. -/
def zero : PeriodState :=
  { proposedValues := GoMap.nil, valueToBlock := GoMap.nil,
    nextVotes := GoMap.nil, softVotes := GoMap.nil, certVotes := GoMap.nil,
    haveNextVoted := GoMap.nil, haveSoftVoted := GoMap.nil, haveCertVoted := GoMap.nil,
    myCertVote := "", startingValue := "", period := 0 }

/-- The tally map `softVotes`, `certVotes` or `nextVotes`. -/
def votes (ps : PeriodState) : VoteType → GoMap Int
  | VoteType.soft => ps.softVotes
  | VoteType.cert => ps.certVotes
  | VoteType.next => ps.nextVotes

/-- The dedup set `haveSoftVoted`, `haveCertVoted` or `haveNextVoted`. -/
def haveVoted (ps : PeriodState) : VoteType → GoMap Bool
  | VoteType.soft => ps.haveSoftVoted
  | VoteType.cert => ps.haveCertVoted
  | VoteType.next => ps.haveNextVoted

/-- Store a tally map back into its field. -/
def setVotes (ps : PeriodState) (X : VoteType) (m : GoMap Int) : PeriodState :=
  match X with
  | VoteType.soft => { ps with softVotes := m }
  | VoteType.cert => { ps with certVotes := m }
  | VoteType.next => { ps with nextVotes := m }

/-- Store a dedup set back into its field. -/
def setHaveVoted (ps : PeriodState) (X : VoteType) (m : GoMap Bool) : PeriodState :=
  match X with
  | VoteType.soft => { ps with haveSoftVoted := m }
  | VoteType.cert => { ps with haveCertVoted := m }
  | VoteType.next => { ps with haveNextVoted := m }

end PeriodState

/-- The Go struct `ServerState`. `tempBlock` is allocated once at startup and
never re-pointed, so it is kept by value; `proposedBlock` is nil until the
first round starts. -/
structure ServerState where
  privateKey : Int
  publicKey : Int
  round : Int
  readyForNextRound : Bool
  tempBlock : Block
  proposedBlock : BlockPtr
  seed : String
  periodState : PeriodState
  lastPeriodState : PeriodState
  period : Int
  step : Int
deriving DecidableEq, Repr

/-- The mutable data of one node: the chain held by the block store
(`bcs.blockchain`, a `[]*pb.Block`) and the server state. -/
structure Node where
  blockchain : List BlockPtr
  state : ServerState
deriving DecidableEq, Repr

/-- The function `initPeriodState(p)`: a period state for period `p` with every
map allocated and empty and both strings empty. -/
def initPeriodState (p : Int) : PeriodState :=
  { proposedValues := GoMap.make, valueToBlock := GoMap.make,
    nextVotes := GoMap.make, softVotes := GoMap.make, certVotes := GoMap.make,
    haveNextVoted := GoMap.make, haveSoftVoted := GoMap.make, haveCertVoted := GoMap.make,
    myCertVote := "", startingValue := "", period := p }

/-- The function `handleHalt(bcs, state, newBlock)`: append the block and
re-enter agreement at the next round, period 1, step 1. -/
def handleHalt (n : Node) (newBlock : BlockPtr) : Node :=
  { blockchain := n.blockchain ++ [newBlock],
    state :=
      { n.state with
        readyForNextRound := true,
        round := incr64 n.state.round,
        lastPeriodState := PeriodState.zero,
        period := 1,
        step := 1,
        periodState := { initPeriodState 1 with startingValue := "_|_" } } }

/-! ## The rest of the messages -/

/-- A `pb.ProposeBlockArgs`. -/
structure ProposeBlockArgs where
  Block : BlockPtr
  Credential : Option SIGRet
  Value : String
  Round : Int
  Peer : String
deriving DecidableEq, Repr

/-- A `pb.AppendBlockArgs`. -/
structure AppendBlockArgs where
  Blockchain : List BlockPtr
  Peer : String
deriving DecidableEq, Repr

/-- A `pb.AppendTransactionArgs`. -/
structure AppendTransactionArgs where
  Tx : Transaction
  Peer : String
deriving DecidableEq, Repr

/-- A `pb.RequestBlockChainRet`. -/
structure RequestBlockChainRet where
  Peer : String
  Blockchain : List BlockPtr
deriving DecidableEq, Repr

/-- The local struct `RequestBlockChainResponse` of `serve`: `err` is `none`
for a nil error. -/
structure RequestBlockChainResponse where
  ret : Option RequestBlockChainRet
  err : Option String
  peer : String
deriving DecidableEq, Repr

/-- A client command read from `bcs.C`: whether its operation is
`pb.Op_SEND`, and the transaction returned by `GetTx()`. -/
structure Command where
  isSend : Bool
  Tx : Transaction
deriving DecidableEq, Repr

/-! ## The functions of the repository that `serve` calls

`runStep2` to `runStep5`, `checkHaltingCondition`, `prepareBlock`,
`calculateHash`, `sortition`, `verifySort`, `SIG` and `signMessage` are
defined in files that are not part of the sources. They are parameters of the
embedding, taken as functions of their arguments. -/

/-- The functions called by `serve` and the data fixed at startup. -/
structure Env where
  runStep2 : PeriodState → PeriodState → Int → String
  runStep3 : PeriodState → Int → String
  runStep4 : PeriodState → PeriodState → Int → String
  runStep5 : PeriodState → PeriodState → Int → String
  checkHaltingCondition : PeriodState → Int → String
  prepareBlock : Block → List BlockPtr → BlockPtr
  calculateHash : BlockPtr → String
  sortition : Int → Int → String → String → List String → Int → Int
  verifySort : String → List String → Int → Int → Int → Bool
  SIG : String → List String → SIGRet
  signMessage : List String → String
  candidates : List String
  peers : List String
  id : String

/-- The value of `strings.Split(addr, ":")[1]`, the user id of an address
`host:port`: what stands between the first colon and the next one (or the
end); `none`, an index out of range, when the address has no colon. -/
def splitPort (addr : String) : Option String :=
  match addr.data.dropWhile (fun c => c != ':') with
  | [] => none
  | _ :: rest => some (String.mk (rest.takeWhile (fun c => c != ':')))

/-- The `userId` of this node, `strings.Split(id, ":")[1]`. -/
def Env.userId (env : Env) : String := (splitPort env.id).getD ""

/-- The value of `peerCount` after the connection loop of `serve`: one
increment for every configured peer (connections are taken to succeed). -/
def peerCount (peers : List String) : Int := (peers.length : Int)

/-- The quorum computed at startup, `t := peerCount / 3` and
`requiredVotes := 2*t + 1`. `none` when startup does not get there: the
connection loop faults on a peer address without a colon, or the node exits
because `peerCount < 3`. -/
def startupRequiredVotes (peers : List String) : Option Int :=
  if peers.all (fun peer => (splitPort peer).isSome) then
    if peerCount peers < 3 then none
    else
      let t := peerCount peers / 3
      some (2 * t + 1)
  else none

/-- The `requiredVotes` of a running node. -/
def Env.requiredVotes (env : Env) : Int := 2 * (peerCount env.peers / 3) + 1

/-- The committee size `k`, hardcoded to 2. -/
def committeeSize : Int := 2

/-- The server state built by `serve` before it enters its loop. -/
def startState : ServerState :=
  { privateKey := 0, publicKey := 0, round := 1, readyForNextRound := true,
    tempBlock := { Tx := [], header := "" }, proposedBlock := none,
    seed := "thisshouldbeahash",
    periodState := { initPeriodState 1 with startingValue := "_|_" },
    lastPeriodState := PeriodState.zero,
    period := 1, step := 1 }

/-- The node as it enters the loop, holding the chain `chain` of the block
store; `none` when startup faults on an address without a colon or exits for
lack of peers. -/
def startup (env : Env) (chain : List BlockPtr) : Option Node :=
  match startupRequiredVotes env.peers with
  | none => none
  | some _ =>
    match splitPort env.id with
    | none => none
    | some _ => some { blockchain := chain, state := startState }

/-! ## The cases of the `select` loop -/

/-- Case `<-roundTimer.C`: step 1, the value proposal. The loop
`for votes > 0` writes the same two entries on every pass, so it is one
write when `votes > 0`. -/
def serveRoundTimer (env : Env) (n : Node) : Option Node :=
  let st := n.state
  if st.readyForNextRound then
    let b := env.prepareBlock st.tempBlock n.blockchain
    let v := env.calculateHash b
    let votes := env.sortition st.privateKey st.round "proposer" env.userId env.candidates
      committeeSize
    let sig := env.SIG env.userId [strconvFormatInt st.round, strconvFormatInt st.period]
    let st1 := { st with readyForNextRound := false, proposedBlock := b }
    if votes > 0 then
      let proposerHash := env.signMessage [env.userId, sig.SignedMessage]
      match st1.periodState.proposedValues.set proposerHash v with
      | none => none
      | some pv =>
        match st1.periodState.valueToBlock.set v b with
        | none => none
        | some vb =>
          some { n with state :=
            { st1 with periodState :=
              { st1.periodState with proposedValues := pv, valueToBlock := vb } } }
    else some { n with state := st1 }
  else some n

/-- The period advance at the end of step 5 ("finish period"), run after the
node has added its own next-vote to `periodState`. -/
def finishPeriod (env : Env) (st : ServerState) : ServerState :=
  let p := incr64 st.period
  { st with
    period := p,
    step := 1,
    lastPeriodState := st.periodState,
    periodState := { initPeriodState p with startingValue := env.calculateHash st.proposedBlock },
    readyForNextRound := true }

/-- The head of case `<-agreementTimer.C`: `state.step++` while the node is
in agreement and below step 5. -/
def advanceStep (st : ServerState) : ServerState :=
  if !st.readyForNextRound && decide (st.step < 5) then { st with step := incr64 st.step }
  else st

/-- The body of case `<-agreementTimer.C`: the branch of the step the cursor
is at, steps 2 to 5. -/
def runCurrentStep (env : Env) (n : Node) : Option Node :=
  let st := n.state
  let ps := st.periodState
  if st.step = 2 then
    let softVoteV := env.runStep2 ps st.lastPeriodState env.requiredVotes
    if softVoteV ≠ "" then
      match ps.softVotes.incr softVoteV with
      | none => none
      | some m => some { n with state := { st with periodState := { ps with softVotes := m } } }
    else some n
  else if st.step = 3 then
    let certVoteV := env.runStep3 ps env.requiredVotes
    if certVoteV ≠ "" then
      match ps.certVotes.incr certVoteV with
      | none => none
      | some m =>
        let ps1 := { ps with certVotes := m, myCertVote := certVoteV }
        let n1 : Node := { n with state := { st with periodState := ps1 } }
        let haltValue := env.checkHaltingCondition ps1 env.requiredVotes
        if haltValue ≠ "" then some (handleHalt n1 (ps1.valueToBlock.getD haltValue none))
        else some n1
    else some n
  else if st.step = 4 then
    let nextVoteV := env.runStep4 ps st.lastPeriodState env.requiredVotes
    match ps.nextVotes.incr nextVoteV with
    | none => none
    | some m => some { n with state := { st with periodState := { ps with nextVotes := m } } }
  else if st.step = 5 then
    let nextVoteV := env.runStep5 ps st.lastPeriodState env.requiredVotes
    if nextVoteV ≠ "" then
      match ps.nextVotes.incr nextVoteV with
      | none => none
      | some m =>
        some { n with state := finishPeriod env { st with periodState := { ps with nextVotes := m } } }
    else some n
  else some n

/-- Case `<-agreementTimer.C`: advance the step cursor, then run the step it
is at. -/
def serveAgreementTimer (env : Env) (n : Node) : Option Node :=
  runCurrentStep env { n with state := advanceStep n.state }

/-- Modelled from the spec: `BCStore.HandleCommand` is not part of the
sources; by section 5 the chain changes only by the append on halt and the
replacement on catch-up, so answering a client command leaves the chain as it
is. -/
def handleCommand (chain : List BlockPtr) (_op : Command) : List BlockPtr := chain

/-- Case `op := <-bcs.C`: a client command. -/
def serveCommand (n : Node) (op : Command) : Node :=
  let st := n.state
  let st1 : ServerState :=
    if op.isSend then { st with tempBlock := { st.tempBlock with Tx := st.tempBlock.Tx ++ [op.Tx] } }
    else st
  { blockchain := handleCommand n.blockchain op, state := st1 }

/-- Case `ab := <-algorand.AppendBlockChan`, with the `Success` of the reply. -/
def serveAppendBlock (n : Node) (arg : AppendBlockArgs) : Node × Bool :=
  if arg.Blockchain.length > n.blockchain.length then
    ({ n with blockchain := arg.Blockchain }, true)
  else (n, false)

/-- Case `at := <-algorand.AppendTransactionChan`, with the `Success` of the
reply. -/
def serveAppendTransaction (n : Node) (arg : AppendTransactionArgs) : Node × Bool :=
  let st := n.state
  ({ n with state := { st with tempBlock := { st.tempBlock with Tx := st.tempBlock.Tx ++ [arg.Tx] } } },
    true)

/-- Case `pbc := <-algorand.ProposeBlockChan`, with the `Success` of the
reply. -/
def serveProposeBlock (env : Env) (n : Node) (arg : ProposeBlockArgs) : Option (Node × Bool) :=
  let st := n.state
  if arg.Round > st.round then some (n, false)
  else
    match arg.Credential with
    | none => none
    | some cred =>
      let proposerId := cred.UserId
      let verified := env.verifySort proposerId env.candidates st.round committeeSize st.period
      if verified then
        let proposerHash := env.signMessage [cred.UserId, cred.SignedMessage]
        match st.periodState.proposedValues.set proposerHash arg.Value with
        | none => none
        | some pv =>
          match st.periodState.valueToBlock.set arg.Value arg.Block with
          | none => none
          | some vb =>
            some ({ n with state :=
              { st with periodState :=
                { st.periodState with proposedValues := pv, valueToBlock := vb } } }, true)
      else some (n, true)

/-- The tally update of one accepted vote of kind `X`: into `periodState`
when the vote is for its period, else into `lastPeriodState` when it is for
that one's period, else nowhere. -/
def tallyVote (X : VoteType) (ps lps : PeriodState) (votePeriod : Int) (voteValue : String) :
    Option (PeriodState × PeriodState) :=
  if votePeriod = ps.period then
    match (ps.votes X).incr voteValue with
    | none => none
    | some m => some (ps.setVotes X m, lps)
  else if votePeriod = lps.period then
    match (lps.votes X).incr voteValue with
    | none => none
    | some m => some (ps, lps.setVotes X m)
  else some (ps, lps)

/-- Case `vc := <-algorand.VoteChan`, with the `Success` of the reply. The
three branches of the source, for `"soft"`, `"cert"` and `"next"`, differ only
in the maps they use and in the halting check that follows a cert-vote. -/
def serveVote (env : Env) (n : Node) (vc : VoteArgs) : Option (Node × Bool) :=
  let st := n.state
  if vc.Round > st.round then some (n, false)
  else
    match vc.Message with
    | none => none
    | some msg =>
      let voterId := msg.UserId
      match msg.Message with
      | voteValue :: voteType :: periodStr :: _ =>
        let votePeriod := strconvParseInt periodStr
        match VoteType.ofString voteType with
        | none => some (n, false)
        | some X =>
          if (st.periodState.haveVoted X).contains voterId then some (n, false)
          else
            match tallyVote X st.periodState st.lastPeriodState votePeriod voteValue with
            | none => none
            | some (ps1, lps1) =>
              match (ps1.haveVoted X).set voterId true with
              | none => none
              | some h =>
                let ps2 := ps1.setHaveVoted X h
                let n1 : Node :=
                  { n with state := { st with periodState := ps2, lastPeriodState := lps1 } }
                if X = VoteType.cert then
                  let haltValue := env.checkHaltingCondition ps2 env.requiredVotes
                  if haltValue ≠ "" then
                    some (handleHalt n1 (ps2.valueToBlock.getD haltValue none), true)
                  else some (n1, true)
                else some (n1, true)
      | _ => none

/-- Case `bcr := <-requestBlockChainResponseChan`: chain catch-up. -/
def serveRequestBlockChainResponse (n : Node) (bcr : RequestBlockChainResponse) : Option Node :=
  match bcr.err with
  | some _ => some n
  | none =>
    match bcr.ret with
    | none => none
    | some ret =>
      let candidateBlockchain := ret.Blockchain
      if candidateBlockchain.length > n.blockchain.length then
        some
          { blockchain := candidateBlockchain,
            state :=
              { n.state with
                readyForNextRound := true,
                round := (candidateBlockchain.length : Int),
                lastPeriodState := PeriodState.zero,
                period := 1,
                step := 1,
                periodState := { initPeriodState 1 with startingValue := "_|_" } } }
      else some n

/-! ## The loop as a transition system -/

/-- What one pass of the `select` can receive. The responses to this node's
own `AppendBlock`, `AppendTransaction`, `ProposeBlock` and `Vote` calls, and
an inbound `RequestBlockChain`, are only logged, answered or re-sent and
leave the node as it is. -/
inductive Event where
  | roundTimer
  | agreementTimer
  | command (op : Command)
  | appendBlock (arg : AppendBlockArgs)
  | appendBlockResponse
  | appendTransaction (arg : AppendTransactionArgs)
  | appendTransactionResponse
  | proposeBlock (arg : ProposeBlockArgs)
  | proposeBlockResponse
  | vote (arg : VoteArgs)
  | voteResponse
  | requestBlockChain
  | requestBlockChainResponse (bcr : RequestBlockChainResponse)
deriving DecidableEq, Repr

/-- One pass of the loop; `none` when the pass faults. -/
def serveStep (env : Env) (n : Node) : Event → Option Node
  | Event.roundTimer => serveRoundTimer env n
  | Event.agreementTimer => serveAgreementTimer env n
  | Event.command op => some (serveCommand n op)
  | Event.appendBlock arg => some (serveAppendBlock n arg).1
  | Event.appendBlockResponse => some n
  | Event.appendTransaction arg => some (serveAppendTransaction n arg).1
  | Event.appendTransactionResponse => some n
  | Event.proposeBlock arg => (serveProposeBlock env n arg).map Prod.fst
  | Event.proposeBlockResponse => some n
  | Event.vote arg => (serveVote env n arg).map Prod.fst
  | Event.voteResponse => some n
  | Event.requestBlockChain => some n
  | Event.requestBlockChainResponse bcr => serveRequestBlockChainResponse n bcr

/-- Run the loop over a list of events, stopping at a fault. -/
def serveRun (env : Env) (n : Node) : List Event → Option Node
  | [] => some n
  | e :: es =>
    match serveStep env n e with
    | none => none
    | some n1 => serveRun env n1 es

/-- The states the loop can be in: the one built at startup over some initial
chain, and every state a pass of the loop leads to from such a state. -/
inductive Reachable (env : Env) : Node → Prop where
  | init (chain : List BlockPtr) (n : Node) (h : startup env chain = some n) : Reachable env n
  | step (n n1 : Node) (e : Event) (hn : Reachable env n) (h : serveStep env n e = some n1) :
      Reachable env n1

/-! ## A concrete deployment

The step rules and the halting rule are written out from sections 4.4 and 4.5
of the specification; they serve to run the loop on explicit inputs. The
theorems below hold for every `Env`. -/

/-- The value written `_|_`. -/
def bottom : String := "_|_"

/-- Whether the map is allocated, and so can be written to. -/
def GoMap.isAlloc {α : Type} : GoMap α → Bool
  | GoMap.nil => false
  | GoMap.alloc _ => true

/-- First value other than `_|_` whose tally reaches the quorum. -/
def quorumValue (m : GoMap Int) (requiredVotes : Int) : Option String :=
  (m.entries.find? (fun e => decide (e.1 ≠ bottom) && decide (requiredVotes ≤ e.2))).map Prod.fst

/-- The entry with the lowest key. -/
def lowestEntry : List (String × String) → Option (String × String)
  | [] => none
  | e :: t =>
    match lowestEntry t with
    | none => some e
    | some e1 => if e1.1 < e.1 then some e1 else some e

/-- Modelled from the spec: `runStep2` is not part of the sources. Section 4.4:
a value other than `_|_` with a quorum of next-votes in the last period, else
the value of the lowest-credential-hash proposer of this period, else empty. -/
def specRunStep2 (ps lps : PeriodState) (requiredVotes : Int) : String :=
  match quorumValue lps.nextVotes requiredVotes with
  | some v => v
  | none =>
    match lowestEntry ps.proposedValues.entries with
    | some e => e.2
    | none => ""

/-- Modelled from the spec: `runStep3` is not part of the sources. Section 4.4:
the value other than `_|_` with a quorum of soft-votes whose block is known,
else empty. -/
def specRunStep3 (ps : PeriodState) (requiredVotes : Int) : String :=
  match ps.softVotes.entries.find?
      (fun e => decide (e.1 ≠ bottom) && decide (requiredVotes ≤ e.2) &&
        ps.valueToBlock.contains e.1) with
  | some e => e.1
  | none => ""

/-- Modelled from the spec: `runStep4` is not part of the sources. Section 4.4:
`myCertVote` if not empty, else `startingValue` if it is not `_|_` and has a
quorum of next-votes in the last period, else `_|_`. -/
def specRunStep4 (ps lps : PeriodState) (requiredVotes : Int) : String :=
  if ps.myCertVote ≠ "" then ps.myCertVote
  else if ps.startingValue ≠ bottom ∧ requiredVotes ≤ lps.nextVotes.getD ps.startingValue 0 then
    ps.startingValue
  else bottom

/-- Modelled from the spec: `runStep5` is not part of the sources. Section 4.4:
`_|_` when it has a quorum of next-votes in this period and no cert-vote was
cast, else a value other than `_|_` with a quorum of next-votes in this or the
last period, else empty. -/
def specRunStep5 (ps lps : PeriodState) (requiredVotes : Int) : String :=
  if requiredVotes ≤ ps.nextVotes.getD bottom 0 ∧ ps.myCertVote = "" then bottom
  else
    match quorumValue ps.nextVotes requiredVotes with
    | some v => v
    | none =>
      match quorumValue lps.nextVotes requiredVotes with
      | some v => v
      | none => ""

/-- Modelled from the spec: `checkHaltingCondition` is not part of the
sources. Section 4.5: some value other than `_|_` with a quorum of cert-votes
whose block is known, else empty. -/
def specCheckHaltingCondition (ps : PeriodState) (requiredVotes : Int) : String :=
  match ps.certVotes.entries.find?
      (fun e => decide (e.1 ≠ bottom) && decide (requiredVotes ≤ e.2) &&
        ps.valueToBlock.contains e.1) with
  | some e => e.1
  | none => ""

/-- A deployment of four nodes, this node and three peers, so the quorum is 3.
The step and halting rules are those of the specification. Sortition, hashing
and signing are opaque to the core; here this node holds no committee seat,
every proposer is accepted, and hashes and signatures are concatenations. -/
def sampleEnv : Env :=
  { runStep2 := specRunStep2,
    runStep3 := specRunStep3,
    runStep4 := specRunStep4,
    runStep5 := specRunStep5,
    checkHaltingCondition := specCheckHaltingCondition,
    prepareBlock := fun tempBlock _ => some { Tx := tempBlock.Tx, header := "" },
    calculateHash := fun b =>
      match b with
      | none => "H()"
      | some blk => "H(" ++ String.join blk.Tx ++ ")",
    sortition := fun _ _ _ _ _ _ => 0,
    verifySort := fun _ _ _ _ _ => true,
    SIG := fun userId message =>
      { UserId := userId, Message := message, SignedMessage := String.join message },
    signMessage := String.join,
    candidates := [],
    peers := ["localhost:3001", "localhost:3002", "localhost:3003"],
    id := "localhost:3000" }

/-- The node of `sampleEnv` at startup, over an empty chain. -/
def sampleStart : Node := { blockchain := [], state := startState }

/-- A vote message from `voter` carrying the payload `[value, type, period]`. -/
def mkVote (voter value voteType period : String) (round : Int) : VoteArgs :=
  { Message := some { UserId := voter, Message := [value, voteType, period], SignedMessage := "" },
    Round := round, Peer := voter }

/-! ## Restricted runs and tally bounds -/

/-- Whether the event is not a vote for a period other than that of
`periodState`: every event but a vote passes, and a vote passes when its third
payload string parses to `periodState.period`. -/
def votesCurrentPeriod (n : Node) : Event → Bool
  | Event.vote vc =>
    match vc.Message with
    | none => true
    | some msg =>
      match msg.Message with
      | _ :: _ :: periodStr :: _ => decide (strconvParseInt periodStr = n.state.periodState.period)
      | _ => true
  | _ => true

/-- The states the loop reaches from startup when every event it receives
passes the filter `ok`. -/
inductive ReachableVia (env : Env) (ok : Node → Event → Bool) : Node → Prop where
  | init (chain : List BlockPtr) (n : Node) (h : startup env chain = some n) :
      ReachableVia env ok n
  | step (n n1 : Node) (e : Event) (hn : ReachableVia env ok n) (hok : ok n e = true)
      (h : serveStep env n e = some n1) : ReachableVia env ok n1

/-- The step at which the node casts its own vote of a kind: the soft-vote in
step 2, the cert-vote in step 3, the next-vote in step 4. -/
def ownVoteStep : VoteType → Int
  | VoteType.soft => 2
  | VoteType.cert => 3
  | VoteType.next => 4

/-- How many own votes of kind `X` the tally of the current period can hold
when the step cursor is at `step`. -/
def ownVotes (X : VoteType) (step : Int) : Int := if ownVoteStep X ≤ step then 1 else 0

/-- A tally map `m` and a dedup set `h` agree up to `own` votes of the node
itself: no tally is negative and `len(h) ≤ Σ m ≤ len(h) + own`. The bound is
asked only while the set is small enough for no tally to wrap around. -/
def TallyOK (m : GoMap Int) (h : GoMap Bool) (own : Int) : Prop :=
  (h.len : Int) + 1 < maxInt64 →
    (∀ e ∈ m.entries, 0 ≤ e.2) ∧ (h.len : Int) ≤ m.total ∧ m.total ≤ (h.len : Int) + own

/-- The tally invariant of a node between two passes of the loop: the step
cursor is between 1 and 5, it is at 1 whenever the node is ready for a round,
and every tally of `periodState` agrees with its dedup set up to the own vote
the node may have cast at or before the current step. -/
def TallyInv (n : Node) : Prop :=
  1 ≤ n.state.step ∧ n.state.step ≤ 5 ∧
  (n.state.readyForNextRound = true → n.state.step = 1) ∧
  ∀ X : VoteType,
    TallyOK (n.state.periodState.votes X) (n.state.periodState.haveVoted X)
      (ownVotes X n.state.step)

/-- The tally invariant in the middle of the agreement-timer case, after the
step cursor has moved and before the step runs: own votes are those cast
before the current step. -/
def TallyMid (n : Node) : Prop :=
  1 ≤ n.state.step ∧ n.state.step ≤ 5 ∧
  (n.state.readyForNextRound = true → n.state.step = 1) ∧
  ∀ X : VoteType,
    TallyOK (n.state.periodState.votes X) (n.state.periodState.haveVoted X)
      (ownVotes X (n.state.step - 1))

/-- The node after an accepted vote of kind `X`, before the halting check. -/
def afterVote (n : Node) (X : VoteType) (ps1 lps1 : PeriodState) (h : GoMap Bool) : Node :=
  { n with state :=
    { n.state with periodState := ps1.setHaveVoted X h, lastPeriodState := lps1 } }

/-- Run the loop over a list of events that must all pass the filter `ok`,
stopping at a fault or at an event the filter refuses. -/
def serveRunVia (env : Env) (ok : Node → Event → Bool) (n : Node) : List Event → Option Node
  | [] => some n
  | e :: es =>
    if ok n e then
      match serveStep env n e with
      | none => none
      | some n1 => serveRunVia env ok n1 es
    else none

/-- Startup, a round-timer tick and three agreement-timer ticks: the node
runs steps 1 to 4 of period 1 with no inbound message. -/
def ownVoteTrace : List Event :=
  [Event.roundTimer, Event.agreementTimer, Event.agreementTimer, Event.agreementTimer]

/-- The node of `sampleEnv` after `ownVoteTrace`. -/
def afterOwnVote : Node := (serveRun sampleEnv sampleStart ownVoteTrace).getD sampleStart

/-- The soft-vote of voter `X` for value `v` in period 1 of round 1. -/
def softVoteX : VoteArgs := mkVote "X" "v" "soft" "1" 1

/-- Period 1 of round 1 up to its end: voter `X` soft-votes `v`, the node runs
steps 1 to 4 and next-votes `_|_`, voters `B` and `C` next-vote `_|_`, and the
next agreement-timer tick runs step 5, which finds the quorum of 3 and
advances to period 2. -/
def advanceTrace : List Event :=
  [Event.vote softVoteX, Event.roundTimer, Event.agreementTimer, Event.agreementTimer,
    Event.agreementTimer, Event.vote (mkVote "B" "_|_" "next" "1" 1),
    Event.vote (mkVote "C" "_|_" "next" "1" 1), Event.agreementTimer]

/-- The node of `sampleEnv` after `advanceTrace`, in period 2. -/
def afterAdvance : Node := (serveRun sampleEnv sampleStart advanceTrace).getD sampleStart

/-- Period 1 of round 1 up to step 5 with a quorum of next-votes for `_|_`
waiting: as `advanceTrace`, without the last tick and with the step cursor
moved to 5 by a tick on which step 5 finds two next-votes only. -/
def step5Trace : List Event :=
  [Event.roundTimer, Event.agreementTimer, Event.agreementTimer, Event.agreementTimer,
    Event.vote (mkVote "B" "_|_" "next" "1" 1), Event.agreementTimer,
    Event.vote (mkVote "C" "_|_" "next" "1" 1)]

/-- The node of `sampleEnv` after `step5Trace`: step 5, in agreement, three
next-votes for `_|_`. -/
def atStep5 : Node := (serveRun sampleEnv sampleStart step5Trace).getD sampleStart

/-- The bookkeeping invariant of a node between two passes of the loop:
`periodState` is that of the current period, the period is an `int64`, from
period 2 on `lastPeriodState` is that of the period before, and the round is
an `int64` no larger than the length of the chain plus one. -/
def BookInv (n : Node) : Prop :=
  n.state.periodState.period = n.state.period ∧
  fitsInt64 n.state.period ∧
  (2 ≤ n.state.period → n.state.lastPeriodState.period = n.state.period - 1) ∧
  minInt64 ≤ n.state.round ∧
  n.state.round ≤ (n.blockchain.length : Int) + 1

/-- A chain of three blocks, as a peer further on would send it. -/
def chainOfThree : List BlockPtr :=
  [some { Tx := ["a"], header := "1" }, some { Tx := ["b"], header := "2" },
    some { Tx := ["c"], header := "3" }]

/-- An error-free response to `RequestBlockChain` that carries the chain `c`. -/
def chainResponse (c : List BlockPtr) (sender peer : String) : RequestBlockChainResponse :=
  { ret := some { Peer := sender, Blockchain := c }, err := none, peer := peer }

/-- The node after a catch-up onto the chain `c`. -/
def caughtUp (n : Node) (c : List BlockPtr) : Node :=
  { blockchain := c,
    state :=
      { privateKey := n.state.privateKey, publicKey := n.state.publicKey,
        round := (c.length : Int), readyForNextRound := true,
        tempBlock := n.state.tempBlock, proposedBlock := n.state.proposedBlock,
        seed := n.state.seed,
        periodState := { initPeriodState 1 with startingValue := "_|_" },
        lastPeriodState := PeriodState.zero, period := 1, step := 1 } }

/-- A vote message of voter `X` for round 1 whose payload holds two strings
only, the value and the type. -/
def shortVote : VoteArgs :=
  { Message := some { UserId := "X", Message := ["v", "soft"], SignedMessage := "" },
    Round := 1, Peer := "X" }

/-- The states in which `proposedBlock` has been set during the current round:
those right after a round-timer tick that ran step 1, and those reached from
such a state by passes of the loop that leave the round as it is. -/
inductive ProposedThisRound (env : Env) : Node → Prop where
  | propose (n n1 : Node) (hn : Reachable env n) (hready : n.state.readyForNextRound = true)
      (h : serveRoundTimer env n = some n1) : ProposedThisRound env n1
  | step (n n1 : Node) (e : Event) (hn : ProposedThisRound env n)
      (h : serveStep env n e = some n1) (hround : n1.state.round = n.state.round) :
      ProposedThisRound env n1

/-- Run the loop over a list of events that must all leave the round as it is,
stopping at a fault or at a change of round. -/
def serveRunSameRound (env : Env) (n : Node) : List Event → Option Node
  | [] => some n
  | e :: es =>
    match serveStep env n e with
    | none => none
    | some n1 => if n1.state.round = n.state.round then serveRunSameRound env n1 es else none

/-- The node of `sampleEnv` after the first round-timer tick: step 1 of round
1 has set `proposedBlock`. -/
def afterPropose : Node := (serveRoundTimer sampleEnv sampleStart).getD sampleStart

/-- The rest of period 1 of round 1 after step 1: steps 2 to 4, two inbound
next-votes for `_|_`, the step 5 that advances to period 2, and then an
inbound transaction. -/
def toPeriodTwoTrace : List Event :=
  [Event.agreementTimer, Event.agreementTimer, Event.agreementTimer,
    Event.vote (mkVote "B" "_|_" "next" "1" 1), Event.vote (mkVote "C" "_|_" "next" "1" 1),
    Event.agreementTimer, Event.appendTransaction { Tx := "tx", Peer := "3001" }]

/-- The node of `sampleEnv` in period 2 of round 1, ready for step 1 again,
with one transaction staged since the round started. -/
def inPeriodTwo : Node :=
  (serveRunSameRound sampleEnv afterPropose toPeriodTwoTrace).getD sampleStart

/-- The node `inPeriodTwo` after the next round-timer tick. -/
def afterRepropose : Node := (serveRoundTimer sampleEnv inPeriodTwo).getD sampleStart

/-- A chain of one block, as held by a peer that has finished round 1. -/
def chainOfOne : List BlockPtr := [some { Tx := ["a"], header := "1" }]

/-- Steps 1 to 4 of period 1 of round 1, and then a soft-vote of a peer that
is in round 2 already: the node refuses it and asks its peers for their
chains. -/
def behindTrace : List Event := ownVoteTrace ++ [Event.vote (mkVote "B" "w" "soft" "1" 2)]

/-- The node of `sampleEnv` after `behindTrace`: round 1, period 1, step 4,
over an empty chain, waiting for the chains it has asked for. -/
def afterBehind : Node := (serveRun sampleEnv sampleStart behindTrace).getD sampleStart

/-- The states the loop can be in when the block store held the chain `chain0`
at startup. -/
inductive ReachableOver (env : Env) (chain0 : List BlockPtr) : Node → Prop where
  | init (n : Node) (h : startup env chain0 = some n) : ReachableOver env chain0 n
  | step (n n1 : Node) (e : Event) (hn : ReachableOver env chain0 n)
      (h : serveStep env n e = some n1) : ReachableOver env chain0 n1

/-- The round is an `int64` no larger than the length of the chain: what holds
along the loop when the chain at startup has at least one block. -/
def RoundInv (n : Node) : Prop :=
  minInt64 ≤ n.state.round ∧ n.state.round ≤ (n.blockchain.length : Int)

/-- The block of `chainOfOne`. -/
def blockOne : BlockPtr := some { Tx := ["a"], header := "1" }

/-- The response that carries `chainOfOne`, from the peer `localhost:3001`. -/
def responseOfOne : RequestBlockChainResponse := chainResponse chainOfOne "3001" "localhost:3001"

/-! ## Lemmas on machine integers and maps -/

theorem incr64_of_fits (x : Int) (h : fitsInt64 (x + 1)) : incr64 x = x + 1 := by
  unfold fitsInt64 minInt64 maxInt64 at h
  unfold incr64 wrap64
  omega

theorem minInt64_le_wrap64 (x : Int) : minInt64 ≤ wrap64 x := by
  unfold minInt64 wrap64
  omega

theorem wrap64_le_maxInt64 (x : Int) : wrap64 x ≤ maxInt64 := by
  unfold maxInt64 wrap64
  omega

theorem incr64_le (x : Int) (h : minInt64 ≤ x) : incr64 x ≤ x + 1 := by
  unfold minInt64 at h
  unfold incr64 wrap64
  omega

theorem findEntry_setEntry_self {α : Type} (l : List (String × α)) (k : String) (v : α) :
    findEntry (setEntry l k v) k = some v := by
  induction l with
  | nil => simp [setEntry, findEntry]
  | cons e t ih =>
    obtain ⟨k1, v1⟩ := e
    by_cases hk : k1 = k
    · simp [setEntry, findEntry, hk]
    · simp [setEntry, findEntry, hk, ih]

theorem findEntry_setEntry_of_ne {α : Type} (l : List (String × α)) (k k2 : String) (v : α)
    (h : k2 ≠ k) : findEntry (setEntry l k v) k2 = findEntry l k2 := by
  induction l with
  | nil => simp [setEntry, findEntry, Ne.symm h]
  | cons e t ih =>
    obtain ⟨k1, v1⟩ := e
    by_cases hk : k1 = k
    · subst hk
      simp [setEntry, findEntry, Ne.symm h]
    · by_cases hk2 : k1 = k2
      · subst hk2
        simp [setEntry, findEntry, hk]
      · simp [setEntry, findEntry, hk, hk2, ih]

theorem length_setEntry_of_absent {α : Type} (l : List (String × α)) (k : String) (v : α)
    (h : findEntry l k = none) : (setEntry l k v).length = l.length + 1 := by
  induction l with
  | nil => simp [setEntry]
  | cons e t ih =>
    obtain ⟨k1, v1⟩ := e
    by_cases hk : k1 = k
    · simp [findEntry, hk] at h
    · simp [findEntry, hk] at h
      simp [setEntry, hk, ih h]

theorem length_setEntry_of_present {α : Type} (l : List (String × α)) (k : String) (v : α)
    (h : findEntry l k ≠ none) : (setEntry l k v).length = l.length := by
  induction l with
  | nil => simp [findEntry] at h
  | cons e t ih =>
    obtain ⟨k1, v1⟩ := e
    by_cases hk : k1 = k
    · simp [setEntry, hk]
    · simp [findEntry, hk] at h
      simp [setEntry, hk, ih h]

/-- Writing a value under `k` changes the sum of the values by the difference
with the value read under `k` before (0 when `k` is new). -/
theorem sum_setEntry (l : List (String × Int)) (k : String) (v : Int) :
    ((setEntry l k v).map Prod.snd).sum = (l.map Prod.snd).sum + v - (findEntry l k).getD 0 := by
  induction l with
  | nil => simp [setEntry, findEntry]
  | cons e t ih =>
    obtain ⟨k1, v1⟩ := e
    by_cases hk : k1 = k
    · simp [setEntry, findEntry, hk]; omega
    · simp [setEntry, findEntry, hk, ih]; omega

theorem GoMap.set_of_isAlloc {α : Type} (m : GoMap α) (k : String) (v : α)
    (h : m.isAlloc = true) : m.set k v = some (GoMap.alloc (setEntry m.entries k v)) := by
  cases m with
  | nil => simp [GoMap.isAlloc] at h
  | alloc l => rfl

theorem GoMap.incr_of_isAlloc (m : GoMap Int) (k : String) (h : m.isAlloc = true) :
    m.incr k = some (GoMap.alloc (setEntry m.entries k (incr64 (m.getD k 0)))) := by
  unfold GoMap.incr
  exact GoMap.set_of_isAlloc m k _ h

theorem GoMap.getD_alloc_setEntry_self {α : Type} (l : List (String × α)) (k : String) (v z : α) :
    (GoMap.alloc (setEntry l k v)).getD k z = v := by
  simp [GoMap.getD, GoMap.find?, GoMap.entries, findEntry_setEntry_self]

theorem GoMap.contains_alloc_setEntry_self {α : Type} (l : List (String × α)) (k : String)
    (v : α) : (GoMap.alloc (setEntry l k v)).contains k = true := by
  simp [GoMap.contains, GoMap.find?, GoMap.entries, findEntry_setEntry_self]

/-- A vote from a voter already in the dedup set of `periodState` is refused
and leaves the node as it is. -/
theorem serveVote_of_contains (env : Env) (n : Node) (vc : VoteArgs) (msg : SIGRet)
    (v ty p : String) (rest : List String) (X : VoteType)
    (hmsg : vc.Message = some msg) (hpay : msg.Message = v :: ty :: p :: rest)
    (hty : VoteType.ofString ty = some X)
    (hdup : (n.state.periodState.haveVoted X).contains msg.UserId = true) :
    serveVote env n vc = some (n, false) := by
  unfold serveVote
  by_cases hr : vc.Round > n.state.round
  · simp [hr]
  · simp [hr, hmsg, hpay, hty, hdup]

/-! ## C1: a duplicate soft-vote -/

/-- C1. A soft-vote for the node's current period from a voter not yet in
`haveSoftVoted`, handled twice in a row: the first reply has `Success = true`
and `softVotes[v]` is one higher; the second reply has `Success = false` and
the second handling returns the node as it was after the first. The state is
one of the data model (period state of the current period, maps allocated,
tally below the largest `int64`). -/
theorem duplicate_soft_vote (env : Env) (n : Node) (vc : VoteArgs) (msg : SIGRet)
    (v p : String) (rest : List String)
    (hmsg : vc.Message = some msg)
    (hpay : msg.Message = v :: "soft" :: p :: rest)
    (hperiod : strconvParseInt p = n.state.period)
    (hround : vc.Round ≤ n.state.round)
    (hinv : n.state.periodState.period = n.state.period)
    (hsv : n.state.periodState.softVotes.isAlloc = true)
    (hhv : n.state.periodState.haveSoftVoted.isAlloc = true)
    (hfit : fitsInt64 (n.state.periodState.softVotes.getD v 0 + 1))
    (hnew : n.state.periodState.haveSoftVoted.contains msg.UserId = false) :
    ∃ n1 : Node,
      serveVote env n vc = some (n1, true) ∧
      n1.state.periodState.softVotes.getD v 0 = n.state.periodState.softVotes.getD v 0 + 1 ∧
      serveVote env n1 vc = some (n1, false) := by
  have hr : ¬ (vc.Round > n.state.round) := not_lt.mpr hround
  have hty : VoteType.ofString "soft" = some VoteType.soft := by decide
  refine ⟨{ n with state := { n.state with periodState := { n.state.periodState with
      softVotes := GoMap.alloc (setEntry n.state.periodState.softVotes.entries v
        (incr64 (n.state.periodState.softVotes.getD v 0))),
      haveSoftVoted := GoMap.alloc
        (setEntry n.state.periodState.haveSoftVoted.entries msg.UserId true) } } }, ?_, ?_, ?_⟩
  · simp [serveVote, hr, hmsg, hpay, hty, PeriodState.haveVoted, hnew, tallyVote, hperiod, hinv,
      PeriodState.votes, GoMap.incr_of_isAlloc _ _ hsv, PeriodState.setVotes,
      GoMap.set_of_isAlloc _ _ _ hhv, PeriodState.setHaveVoted]
  · simp only [GoMap.getD_alloc_setEntry_self]
    exact incr64_of_fits _ hfit
  · exact serveVote_of_contains env _ vc msg v "soft" p rest VoteType.soft hmsg hpay hty
      (by simp [PeriodState.haveVoted, GoMap.contains_alloc_setEntry_self])

/-- C1 at the startup state: voter `X` soft-votes `v` for period 1 twice. -/
theorem duplicate_soft_vote_witness :
    ∃ n1 : Node,
      serveVote sampleEnv sampleStart (mkVote "X" "v" "soft" "1" 1) = some (n1, true) ∧
      n1.state.periodState.softVotes.getD "v" 0 =
        sampleStart.state.periodState.softVotes.getD "v" 0 + 1 ∧
      serveVote sampleEnv n1 (mkVote "X" "v" "soft" "1" 1) = some (n1, false) :=
  duplicate_soft_vote sampleEnv sampleStart (mkVote "X" "v" "soft" "1" 1)
    { UserId := "X", Message := ["v", "soft", "1"], SignedMessage := "" } "v" "1" []
    rfl rfl (by decide) (by decide) rfl rfl rfl (by decide) (by decide)

theorem findEntry_bounds (l : List (String × Int)) (k : String) (h : ∀ e ∈ l, 0 ≤ e.2) :
    0 ≤ (findEntry l k).getD 0 ∧ (findEntry l k).getD 0 ≤ (l.map Prod.snd).sum := by
  induction l with
  | nil => simp [findEntry]
  | cons e t ih =>
    obtain ⟨k1, v1⟩ := e
    have h1 : 0 ≤ v1 := h (k1, v1) (by simp)
    have ht : ∀ e ∈ t, 0 ≤ e.2 := fun e he => h e (by simp [he])
    have hsum : 0 ≤ (t.map Prod.snd).sum := by
      apply List.sum_nonneg
      intro x hx
      simp only [List.mem_map] at hx
      obtain ⟨e, he, rfl⟩ := hx
      exact ht e he
    obtain ⟨ih1, ih2⟩ := ih ht
    by_cases hk : k1 = k
    · simp [findEntry, hk]; omega
    · simp [findEntry, hk]; omega

theorem mem_setEntry {α : Type} (l : List (String × α)) (k : String) (v : α) (e : String × α)
    (he : e ∈ setEntry l k v) : e = (k, v) ∨ e ∈ l := by
  induction l with
  | nil => simpa [setEntry] using he
  | cons e1 t ih =>
    obtain ⟨k1, v1⟩ := e1
    by_cases hk : k1 = k
    · simp [setEntry, hk] at he
      rcases he with he | he
      · exact Or.inl he
      · exact Or.inr (by simp [he])
    · simp [setEntry, hk] at he
      rcases he with he | he
      · exact Or.inr (by simp [he])
      · rcases ih he with h1 | h1
        · exact Or.inl h1
        · exact Or.inr (by simp [h1])

theorem TallyOK_make (own : Int) (h : 0 ≤ own) : TallyOK GoMap.make GoMap.make own := by
  intro _
  simp [GoMap.make, GoMap.entries, GoMap.total, GoMap.len, h]

theorem TallyOK_mono (m : GoMap Int) (h : GoMap Bool) (o o1 : Int) (ho : o ≤ o1)
    (hOK : TallyOK m h o) : TallyOK m h o1 := by
  intro hs
  obtain ⟨h1, h2, h3⟩ := hOK hs
  exact ⟨h1, h2, by omega⟩

/-- The facts about `m[k]++` on a tally map with no negative entry whose sum
is below the largest `int64`. -/
theorem incr_facts (m m1 : GoMap Int) (k : String) (hm : m.incr k = some m1)
    (hpos : ∀ e ∈ m.entries, 0 ≤ e.2) (hlt : m.total < maxInt64) :
    (∀ e ∈ m1.entries, 0 ≤ e.2) ∧ m1.total = m.total + 1 := by
  cases m with
  | nil => simp [GoMap.incr, GoMap.set] at hm
  | alloc l =>
    simp only [GoMap.incr, GoMap.set, Option.some.injEq] at hm
    subst hm
    simp only [GoMap.entries] at hpos
    simp only [GoMap.total, GoMap.entries] at hlt
    obtain ⟨hb1, hb2⟩ := findEntry_bounds l k hpos
    have hget : (GoMap.alloc l).getD k 0 = (findEntry l k).getD 0 := rfl
    have hinc : incr64 ((GoMap.alloc l).getD k 0) = (findEntry l k).getD 0 + 1 := by
      rw [hget]
      apply incr64_of_fits
      unfold fitsInt64 minInt64
      unfold maxInt64 at hlt ⊢
      omega
    constructor
    · intro e he
      simp only [GoMap.entries] at he
      rcases mem_setEntry _ _ _ _ he with h1 | h1
      · rw [h1, hinc]; simp only; omega
      · exact hpos e h1
    · simp only [GoMap.total, GoMap.entries, sum_setEntry, hinc]
      omega

/-- The node's own vote: the tally grows, the dedup set does not. -/
theorem TallyOK_own (m m1 : GoMap Int) (h : GoMap Bool) (k : String)
    (hm : m.incr k = some m1) (hOK : TallyOK m h 0) : TallyOK m1 h 1 := by
  intro hs
  obtain ⟨h1, h2, h3⟩ := hOK hs
  obtain ⟨f1, f2⟩ := incr_facts m m1 k hm h1 (by omega)
  exact ⟨f1, by omega, by omega⟩

/-- An accepted inbound vote: the tally and the dedup set both grow by one. -/
theorem TallyOK_vote (m m1 : GoMap Int) (h h1 : GoMap Bool) (k voter : String) (own : Int)
    (hown : own ≤ 1)
    (hm : m.incr k = some m1) (hnew : h.contains voter = false)
    (hh : h.set voter true = some h1) (hOK : TallyOK m h own) : TallyOK m1 h1 own := by
  have hlen : h1.len = h.len + 1 := by
    cases h with
    | nil => simp [GoMap.set] at hh
    | alloc l =>
      simp only [GoMap.set, Option.some.injEq] at hh
      subst hh
      have hnone : findEntry l voter = none := by
        simpa [GoMap.contains, GoMap.find?, GoMap.entries] using hnew
      simp [GoMap.len, GoMap.entries, length_setEntry_of_absent _ _ _ hnone]
  intro hs
  rw [hlen] at hs ⊢
  push_cast at hs ⊢
  obtain ⟨g1, g2, g3⟩ := hOK (by omega)
  obtain ⟨f1, f2⟩ := incr_facts m m1 k hm g1 (by omega)
  exact ⟨f1, by omega, by omega⟩

/-! ## Reading the vote maps after an update -/

theorem votes_setVotes_self (ps : PeriodState) (X : VoteType) (m : GoMap Int) :
    (ps.setVotes X m).votes X = m := by
  cases X <;> rfl

theorem votes_setVotes_of_ne (ps : PeriodState) (X Y : VoteType) (m : GoMap Int) (h : Y ≠ X) :
    (ps.setVotes X m).votes Y = ps.votes Y := by
  cases X <;> cases Y <;> first | rfl | exact absurd rfl h

theorem haveVoted_setVotes (ps : PeriodState) (X Y : VoteType) (m : GoMap Int) :
    (ps.setVotes X m).haveVoted Y = ps.haveVoted Y := by
  cases X <;> cases Y <;> rfl

theorem votes_setHaveVoted (ps : PeriodState) (X Y : VoteType) (h : GoMap Bool) :
    (ps.setHaveVoted X h).votes Y = ps.votes Y := by
  cases X <;> cases Y <;> rfl

theorem haveVoted_setHaveVoted_self (ps : PeriodState) (X : VoteType) (h : GoMap Bool) :
    (ps.setHaveVoted X h).haveVoted X = h := by
  cases X <;> rfl

theorem haveVoted_setHaveVoted_of_ne (ps : PeriodState) (X Y : VoteType) (h : GoMap Bool)
    (hne : Y ≠ X) : (ps.setHaveVoted X h).haveVoted Y = ps.haveVoted Y := by
  cases X <;> cases Y <;> first | rfl | exact absurd rfl hne

theorem period_setVotes (ps : PeriodState) (X : VoteType) (m : GoMap Int) :
    (ps.setVotes X m).period = ps.period := by
  cases X <;> rfl

theorem period_setHaveVoted (ps : PeriodState) (X : VoteType) (h : GoMap Bool) :
    (ps.setHaveVoted X h).period = ps.period := by
  cases X <;> rfl

/-! ## The tally invariant along the loop -/

theorem votes_initPeriodState (p : Int) (s : String) (X : VoteType) :
    ({ initPeriodState p with startingValue := s } : PeriodState).votes X = GoMap.make := by
  cases X <;> rfl

theorem haveVoted_initPeriodState (p : Int) (s : String) (X : VoteType) :
    ({ initPeriodState p with startingValue := s } : PeriodState).haveVoted X = GoMap.make := by
  cases X <;> rfl

theorem ownVotes_nonneg (X : VoteType) (step : Int) : 0 ≤ ownVotes X step := by
  unfold ownVotes; split <;> omega

theorem ownVotes_le_one (X : VoteType) (step : Int) : ownVotes X step ≤ 1 := by
  unfold ownVotes; split <;> omega

theorem ownVotes_mono (X : VoteType) (a b : Int) (h : a ≤ b) : ownVotes X a ≤ ownVotes X b := by
  unfold ownVotes; split <;> split <;> omega

/-- A node at step 1 whose period state is fresh satisfies the invariant. -/
theorem TallyInv_of_fresh (n : Node) (p : Int) (s : String)
    (hps : n.state.periodState = { initPeriodState p with startingValue := s })
    (hstep : n.state.step = 1) : TallyInv n := by
  refine ⟨by omega, by omega, fun _ => hstep, fun X => ?_⟩
  rw [hps, votes_initPeriodState, haveVoted_initPeriodState]
  exact TallyOK_make _ (ownVotes_nonneg _ _)

/-- The invariant looks only at the step cursor, the ready flag and the vote
maps of `periodState`. -/
theorem TallyInv_of_same (n n1 : Node) (hI : TallyInv n)
    (hstep : n1.state.step = n.state.step)
    (hready : n1.state.readyForNextRound = true → n.state.readyForNextRound = true)
    (hv : ∀ X, n1.state.periodState.votes X = n.state.periodState.votes X)
    (hh : ∀ X, n1.state.periodState.haveVoted X = n.state.periodState.haveVoted X) :
    TallyInv n1 := by
  obtain ⟨h1, h2, h3, h4⟩ := hI
  refine ⟨by omega, by omega, fun hr => by rw [hstep]; exact h3 (hready hr), fun X => ?_⟩
  rw [hv, hh, hstep]
  exact h4 X

theorem TallyInv_handleHalt (n : Node) (b : BlockPtr) : TallyInv (handleHalt n b) :=
  TallyInv_of_fresh _ 1 "_|_" rfl rfl

theorem TallyInv_startup (env : Env) (chain : List BlockPtr) (n : Node)
    (h : startup env chain = some n) : TallyInv n := by
  unfold startup at h
  split at h
  · simp at h
  · split at h
    · simp at h
    · simp only [Option.some.injEq] at h
      subst h
      exact TallyInv_of_fresh _ 1 "_|_" rfl rfl

theorem TallyInv_roundTimer (env : Env) (n n1 : Node) (hI : TallyInv n)
    (h : serveRoundTimer env n = some n1) : TallyInv n1 := by
  unfold serveRoundTimer at h
  simp only at h
  split at h
  · split at h
    · split at h
      · simp at h
      · split at h
        · simp at h
        · simp only [Option.some.injEq] at h
          subst h
          exact TallyInv_of_same _ _ hI rfl (by simp) (fun X => by cases X <;> rfl)
            (fun X => by cases X <;> rfl)
    · simp only [Option.some.injEq] at h
      subst h
      exact TallyInv_of_same _ _ hI rfl (by simp) (fun X => by cases X <;> rfl)
        (fun X => by cases X <;> rfl)
  · simp only [Option.some.injEq] at h
    subst h
    exact hI

theorem TallyInv_proposeBlock (env : Env) (n n1 : Node) (arg : ProposeBlockArgs) (b : Bool)
    (hI : TallyInv n) (h : serveProposeBlock env n arg = some (n1, b)) : TallyInv n1 := by
  unfold serveProposeBlock at h
  simp only at h
  split at h
  · simp only [Option.some.injEq, Prod.mk.injEq] at h
    rw [← h.1]; exact hI
  · split at h
    · simp at h
    · split at h
      · split at h
        · simp at h
        · split at h
          · simp at h
          · simp only [Option.some.injEq, Prod.mk.injEq] at h
            rw [← h.1]
            exact TallyInv_of_same _ _ hI rfl (fun hr => hr) (fun X => by cases X <;> rfl)
              (fun X => by cases X <;> rfl)
      · simp only [Option.some.injEq, Prod.mk.injEq] at h
        rw [← h.1]; exact hI

theorem TallyInv_requestBlockChainResponse (n n1 : Node) (bcr : RequestBlockChainResponse)
    (hI : TallyInv n) (h : serveRequestBlockChainResponse n bcr = some n1) : TallyInv n1 := by
  unfold serveRequestBlockChainResponse at h
  split at h
  · simp only [Option.some.injEq] at h
    rw [← h]; exact hI
  · split at h
    · simp at h
    · simp only at h
      split at h
      · simp only [Option.some.injEq] at h
        rw [← h]
        exact TallyInv_of_fresh _ 1 "_|_" rfl rfl
      · simp only [Option.some.injEq] at h
        rw [← h]; exact hI

theorem TallyInv_of_mid (n : Node) (hM : TallyMid n) : TallyInv n := by
  obtain ⟨h1, h2, h3, h4⟩ := hM
  exact ⟨h1, h2, h3, fun X => TallyOK_mono _ _ _ _ (ownVotes_mono X _ _ (by omega)) (h4 X)⟩

theorem TallyMid_advanceStep (n : Node) (hI : TallyInv n) :
    TallyMid { n with state := advanceStep n.state } := by
  obtain ⟨h1, h2, h3, h4⟩ := hI
  unfold advanceStep
  by_cases hc : (!n.state.readyForNextRound && decide (n.state.step < 5)) = true
  · rw [if_pos hc]
    simp only [Bool.and_eq_true, Bool.not_eq_true', decide_eq_true_eq] at hc
    have hinc : incr64 n.state.step = n.state.step + 1 := by
      apply incr64_of_fits
      unfold fitsInt64 minInt64 maxInt64
      omega
    refine ⟨?_, ?_, ?_, fun X => ?_⟩
    · simp only [hinc]; omega
    · simp only [hinc]; omega
    · simp [hc.1]
    · simp only [hinc]
      have : n.state.step + 1 - 1 = n.state.step := by omega
      rw [this]
      exact h4 X
  · rw [if_neg hc]
    simp only [Bool.and_eq_true, Bool.not_eq_true', decide_eq_true_eq, not_and, not_lt] at hc
    refine ⟨h1, h2, h3, fun X => ?_⟩
    have hs : n.state.step = 1 ∨ n.state.step = 5 := by
      cases hr : n.state.readyForNextRound with
      | true => exact Or.inl (h3 hr)
      | false => exact Or.inr (le_antisymm h2 (hc hr))
    have ho : ownVotes X (n.state.step - 1) = ownVotes X n.state.step := by
      rcases hs with hs | hs <;> rw [hs] <;> cases X <;> decide
    simp only [ho]
    exact h4 X

/-- The outcomes of the body of the agreement-timer case when it does not
fault: nothing; a halt after the own cert-vote of step 3; the period advance
of step 5 after the own next-vote; or one own vote of the kind cast at the
current step, which changes a tally (and `myCertVote`) and nothing else. -/
theorem runCurrentStep_cases (env : Env) (n n1 : Node) (h : runCurrentStep env n = some n1) :
    n1 = n ∨
    (∃ ps1 blk, n1 = handleHalt { n with state := { n.state with periodState := ps1 } } blk) ∨
    (∃ k m, n.state.step = 5 ∧ n.state.periodState.nextVotes.incr k = some m ∧
      env.runStep5 n.state.periodState n.state.lastPeriodState env.requiredVotes = k ∧ k ≠ "" ∧
      n1 = { n with
        state := finishPeriod env
          ({ n.state with periodState := { n.state.periodState with nextVotes := m } }) }) ∨
    (∃ X k m myc, n.state.step = ownVoteStep X ∧
      (n.state.periodState.votes X).incr k = some m ∧
      n1 = { n with state :=
        { n.state with periodState :=
          { n.state.periodState.setVotes X m with myCertVote := myc } } }) := by
  unfold runCurrentStep at h
  simp only at h
  split at h
  · rename_i hs
    split at h
    · split at h
      · simp at h
      · rename_i m hm
        simp only [Option.some.injEq] at h
        exact Or.inr (Or.inr (Or.inr ⟨VoteType.soft, _, m, n.state.periodState.myCertVote,
          hs, hm, h.symm⟩))
    · simp only [Option.some.injEq] at h
      exact Or.inl h.symm
  · split at h
    · rename_i hs
      split at h
      · split at h
        · simp at h
        · rename_i m hm
          split at h
          · simp only [Option.some.injEq] at h
            exact Or.inr (Or.inl ⟨_, _, h.symm⟩)
          · simp only [Option.some.injEq] at h
            exact Or.inr (Or.inr (Or.inr ⟨VoteType.cert, _, m, _, hs, hm, h.symm⟩))
      · simp only [Option.some.injEq] at h
        exact Or.inl h.symm
    · split at h
      · rename_i hs
        split at h
        · simp at h
        · rename_i m hm
          simp only [Option.some.injEq] at h
          exact Or.inr (Or.inr (Or.inr ⟨VoteType.next, _, m, n.state.periodState.myCertVote,
            hs, hm, h.symm⟩))
      · split at h
        · rename_i hs
          split at h
          · rename_i hk
            split at h
            · simp at h
            · rename_i m hm
              simp only [Option.some.injEq] at h
              exact Or.inr (Or.inr (Or.inl ⟨_, m, hs, hm, rfl, hk, h.symm⟩))
          · simp only [Option.some.injEq] at h
            exact Or.inl h.symm
        · simp only [Option.some.injEq] at h
          exact Or.inl h.symm

theorem votes_withMyCertVote (ps : PeriodState) (s : String) (Y : VoteType) :
    ({ ps with myCertVote := s } : PeriodState).votes Y = ps.votes Y := by
  cases Y <;> rfl

theorem haveVoted_withMyCertVote (ps : PeriodState) (s : String) (Y : VoteType) :
    ({ ps with myCertVote := s } : PeriodState).haveVoted Y = ps.haveVoted Y := by
  cases Y <;> rfl

theorem TallyInv_runCurrentStep (env : Env) (n n1 : Node) (hM : TallyMid n)
    (h : runCurrentStep env n = some n1) : TallyInv n1 := by
  have hI : TallyInv n := TallyInv_of_mid n hM
  rcases runCurrentStep_cases env n n1 h with h0 | ⟨ps1, blk, h0⟩ | ⟨k, m, _, _, _, _, h0⟩ |
    ⟨X, k, m, myc, hX, hm, h0⟩
  · rw [h0]; exact hI
  · rw [h0]; exact TallyInv_handleHalt _ _
  · rw [h0]; exact TallyInv_of_fresh _ _ _ rfl rfl
  · obtain ⟨h1, h2, h3, h4⟩ := hM
    subst h0
    refine ⟨h1, h2, h3, fun Y => ?_⟩
    show TallyOK (({ n.state.periodState.setVotes X m with myCertVote := myc } : PeriodState).votes Y)
      (({ n.state.periodState.setVotes X m with myCertVote := myc } : PeriodState).haveVoted Y)
      (ownVotes Y n.state.step)
    rw [votes_withMyCertVote, haveVoted_withMyCertVote, haveVoted_setVotes]
    by_cases hY : Y = X
    · subst hY
      rw [votes_setVotes_self]
      have h0 := h4 Y
      have e0 : ownVotes Y (n.state.step - 1) = 0 := by
        unfold ownVotes; rw [if_neg]; omega
      have e1 : ownVotes Y n.state.step = 1 := by
        unfold ownVotes; rw [if_pos]; omega
      rw [e0] at h0
      rw [e1]
      exact TallyOK_own _ _ _ _ hm h0
    · rw [votes_setVotes_of_ne _ _ _ _ hY]
      exact hI.2.2.2 Y

theorem TallyInv_agreementTimer (env : Env) (n n1 : Node) (hI : TallyInv n)
    (h : serveAgreementTimer env n = some n1) : TallyInv n1 :=
  TallyInv_runCurrentStep env _ n1 (TallyMid_advanceStep n hI) h

/-! ## The vote handler -/

/-- The outcomes of the vote handler when it does not fault: a refusal that
leaves the node as it is, or an acceptance, which tallies the vote, enters the
voter in the dedup set of `periodState` and may end with a halt. -/
theorem serveVote_cases (env : Env) (n n1 : Node) (vc : VoteArgs) (b : Bool)
    (h : serveVote env n vc = some (n1, b)) :
    (n1 = n ∧ b = false) ∨
    (b = true ∧ ∃ msg v ty p rest X ps1 lps1 hv,
      vc.Message = some msg ∧ msg.Message = v :: ty :: p :: rest ∧
      VoteType.ofString ty = some X ∧ vc.Round ≤ n.state.round ∧
      (n.state.periodState.haveVoted X).contains msg.UserId = false ∧
      tallyVote X n.state.periodState n.state.lastPeriodState (strconvParseInt p) v =
        some (ps1, lps1) ∧
      (ps1.haveVoted X).set msg.UserId true = some hv ∧
      (n1 = afterVote n X ps1 lps1 hv ∨ ∃ blk, n1 = handleHalt (afterVote n X ps1 lps1 hv) blk)) := by
  unfold serveVote at h
  simp only at h
  split at h
  · simp only [Option.some.injEq, Prod.mk.injEq] at h
    exact Or.inl ⟨h.1.symm, h.2.symm⟩
  · rename_i hr
    split at h
    · simp at h
    · rename_i msg hmsg
      split at h
      · rename_i v ty p rest hpay
        split at h
        · simp only [Option.some.injEq, Prod.mk.injEq] at h
          exact Or.inl ⟨h.1.symm, h.2.symm⟩
        · rename_i X hX
          split at h
          · simp only [Option.some.injEq, Prod.mk.injEq] at h
            exact Or.inl ⟨h.1.symm, h.2.symm⟩
          · rename_i hnew
            split at h
            · simp at h
            · rename_i ps1 lps1 htally
              split at h
              · simp at h
              · rename_i hv hset
                have hctx : vc.Round ≤ n.state.round := not_lt.mp hr
                have hnew1 : (n.state.periodState.haveVoted X).contains msg.UserId = false := by
                  simpa using hnew
                split at h
                · split at h
                  · simp only [Option.some.injEq, Prod.mk.injEq] at h
                    exact Or.inr ⟨h.2.symm, msg, v, ty, p, rest, X, ps1, lps1, hv, hmsg, hpay, hX,
                      hctx, hnew1, htally, hset, Or.inr ⟨_, h.1.symm⟩⟩
                  · simp only [Option.some.injEq, Prod.mk.injEq] at h
                    exact Or.inr ⟨h.2.symm, msg, v, ty, p, rest, X, ps1, lps1, hv, hmsg, hpay, hX,
                      hctx, hnew1, htally, hset, Or.inl h.1.symm⟩
                · simp only [Option.some.injEq, Prod.mk.injEq] at h
                  exact Or.inr ⟨h.2.symm, msg, v, ty, p, rest, X, ps1, lps1, hv, hmsg, hpay, hX,
                    hctx, hnew1, htally, hset, Or.inl h.1.symm⟩
      · simp at h

/-- The tally update of a vote for the period of `periodState`. -/
theorem tallyVote_current (X : VoteType) (ps lps ps1 lps1 : PeriodState) (votePeriod : Int)
    (v : String) (hp : votePeriod = ps.period)
    (h : tallyVote X ps lps votePeriod v = some (ps1, lps1)) :
    ∃ m, (ps.votes X).incr v = some m ∧ ps1 = ps.setVotes X m ∧ lps1 = lps := by
  unfold tallyVote at h
  rw [if_pos hp] at h
  split at h
  · simp at h
  · rename_i m hm
    simp only [Option.some.injEq, Prod.mk.injEq] at h
    exact ⟨m, hm, h.1.symm, h.2.symm⟩

theorem TallyInv_vote (env : Env) (n n1 : Node) (vc : VoteArgs) (b : Bool) (hI : TallyInv n)
    (hok : votesCurrentPeriod n (Event.vote vc) = true)
    (h : serveVote env n vc = some (n1, b)) : TallyInv n1 := by
  rcases serveVote_cases env n n1 vc b h with ⟨h0, _⟩ |
    ⟨_, msg, v, ty, p, rest, X, ps1, lps1, hv, hmsg, hpay, hX, _, hnew, htally, hset, hn1⟩
  · rw [h0]; exact hI
  · have hp : strconvParseInt p = n.state.periodState.period := by
      simpa [votesCurrentPeriod, hmsg, hpay] using hok
    obtain ⟨m, hm, hps1, _⟩ := tallyVote_current X _ _ _ _ _ v hp htally
    subst hps1
    rw [haveVoted_setVotes] at hset
    have hA : TallyInv (afterVote n X (n.state.periodState.setVotes X m) lps1 hv) := by
      obtain ⟨h1, h2, h3, h4⟩ := hI
      refine ⟨h1, h2, h3, fun Y => ?_⟩
      show TallyOK (((n.state.periodState.setVotes X m).setHaveVoted X hv).votes Y)
        (((n.state.periodState.setVotes X m).setHaveVoted X hv).haveVoted Y)
        (ownVotes Y n.state.step)
      by_cases hY : Y = X
      · subst hY
        rw [votes_setHaveVoted, votes_setVotes_self, haveVoted_setHaveVoted_self]
        exact TallyOK_vote _ _ _ _ v msg.UserId _ (ownVotes_le_one _ _) hm hnew hset (h4 Y)
      · rw [votes_setHaveVoted, votes_setVotes_of_ne _ _ _ _ hY,
          haveVoted_setHaveVoted_of_ne _ _ _ _ hY, haveVoted_setVotes]
        exact h4 Y
    rcases hn1 with hn1 | ⟨blk, hn1⟩
    · rw [hn1]; exact hA
    · rw [hn1]; exact TallyInv_handleHalt _ _

/-! ## Reachability -/

theorem Reachable_of_run (env : Env) (es : List Event) :
    ∀ n n1 : Node, Reachable env n → serveRun env n es = some n1 → Reachable env n1 := by
  induction es with
  | nil =>
    intro n n1 hn h
    simp only [serveRun, Option.some.injEq] at h
    rw [← h]; exact hn
  | cons e es ih =>
    intro n n1 hn h
    simp only [serveRun] at h
    split at h
    · simp at h
    · rename_i n2 h2
      exact ih n2 n1 (Reachable.step n n2 e hn h2) h

theorem ReachableVia_of_run (env : Env) (ok : Node → Event → Bool) (es : List Event) :
    ∀ n n1 : Node, ReachableVia env ok n → serveRunVia env ok n es = some n1 →
      ReachableVia env ok n1 := by
  induction es with
  | nil =>
    intro n n1 hn h
    simp only [serveRunVia, Option.some.injEq] at h
    rw [← h]; exact hn
  | cons e es ih =>
    intro n n1 hn h
    simp only [serveRunVia] at h
    split at h
    · rename_i hok
      split at h
      · simp at h
      · rename_i n2 h2
        exact ih n2 n1 (ReachableVia.step n n2 e hn hok h2) h
    · simp at h

theorem Reachable_of_reachableVia (env : Env) (ok : Node → Event → Bool) (n : Node)
    (h : ReachableVia env ok n) : Reachable env n := by
  induction h with
  | init chain n h => exact Reachable.init chain n h
  | step n n1 e _ _ h ih => exact Reachable.step n n1 e ih h

theorem Reachable_sampleStart : Reachable sampleEnv sampleStart :=
  Reachable.init [] sampleStart rfl

theorem ReachableVia_sampleStart (ok : Node → Event → Bool) :
    ReachableVia sampleEnv ok sampleStart :=
  ReachableVia.init [] sampleStart rfl

theorem TallyInv_serveStep (env : Env) (n n1 : Node) (e : Event) (hI : TallyInv n)
    (hok : votesCurrentPeriod n e = true) (h : serveStep env n e = some n1) : TallyInv n1 := by
  cases e with
  | roundTimer => exact TallyInv_roundTimer env n n1 hI h
  | agreementTimer => exact TallyInv_agreementTimer env n n1 hI h
  | command op =>
    simp only [serveStep, Option.some.injEq] at h
    rw [← h]
    exact TallyInv_of_same _ _ hI (by unfold serveCommand; split <;> rfl)
      (by unfold serveCommand; split <;> exact fun hr => hr)
      (fun X => by unfold serveCommand; split <;> rfl)
      (fun X => by unfold serveCommand; split <;> rfl)
  | appendBlock arg =>
    simp only [serveStep, Option.some.injEq] at h
    rw [← h]
    unfold serveAppendBlock
    split
    · exact TallyInv_of_same _ _ hI rfl (fun hr => hr) (fun _ => rfl) (fun _ => rfl)
    · exact hI
  | appendBlockResponse => simp only [serveStep, Option.some.injEq] at h; rw [← h]; exact hI
  | appendTransaction arg =>
    simp only [serveStep, Option.some.injEq] at h
    rw [← h]
    exact TallyInv_of_same _ _ hI rfl (fun hr => hr) (fun _ => rfl) (fun _ => rfl)
  | appendTransactionResponse =>
    simp only [serveStep, Option.some.injEq] at h; rw [← h]; exact hI
  | proposeBlock arg =>
    simp only [serveStep, Option.map_eq_some'] at h
    obtain ⟨⟨n2, b⟩, h2, h3⟩ := h
    simp only at h3
    subst h3
    exact TallyInv_proposeBlock env n n2 arg b hI h2
  | proposeBlockResponse => simp only [serveStep, Option.some.injEq] at h; rw [← h]; exact hI
  | vote arg =>
    simp only [serveStep, Option.map_eq_some'] at h
    obtain ⟨⟨n2, b⟩, h2, h3⟩ := h
    simp only at h3
    subst h3
    exact TallyInv_vote env n n2 arg b hI hok h2
  | voteResponse => simp only [serveStep, Option.some.injEq] at h; rw [← h]; exact hI
  | requestBlockChain => simp only [serveStep, Option.some.injEq] at h; rw [← h]; exact hI
  | requestBlockChainResponse bcr => exact TallyInv_requestBlockChainResponse n n1 bcr hI h

theorem TallyInv_of_reachableVia (env : Env) (n : Node)
    (h : ReachableVia env votesCurrentPeriod n) : TallyInv n := by
  induction h with
  | init chain n h => exact TallyInv_startup env chain n h
  | step n n1 e _ hok h ih => exact TallyInv_serveStep env n n1 e ih hok h

/-! ## C2: tallies and dedup sets -/

/-- C2, refuted as stated. After a round-timer tick and three agreement-timer
ticks the node has added its own next-vote to `nextVotes` in step 4 and
nobody is in `haveNextVoted`: the sum of the tallies is 1, the set is empty. -/
theorem tally_invariant_counterexample :
    ¬ ∀ (env : Env) (n : Node), Reachable env n → ∀ X : VoteType,
        ((n.state.periodState.haveVoted X).len : Int) = (n.state.periodState.votes X).total := by
  intro hall
  have hrun : serveRun sampleEnv sampleStart ownVoteTrace = some afterOwnVote := by decide
  have hreach : Reachable sampleEnv afterOwnVote :=
    Reachable_of_run sampleEnv ownVoteTrace sampleStart afterOwnVote Reachable_sampleStart hrun
  have hbad := hall sampleEnv afterOwnVote hreach VoteType.next
  revert hbad
  decide

/-- C2, amended. In every state reached from startup through events in which
every inbound vote is for the period of `periodState`, and for each kind of
vote, the dedup set and the tallies of `periodState` satisfy
`len(haveXVoted) ≤ Σ XVotes ≤ len(haveXVoted) + own`, where `own` is 1 from
the step at which the node casts its own vote of that kind (2 for soft, 3 for
cert, 4 for next) and 0 before; the set is assumed to hold fewer than
`2^63 - 2` voters, so that no tally wraps around. -/
theorem tally_bounds (env : Env) (n : Node) (X : VoteType)
    (hn : ReachableVia env votesCurrentPeriod n)
    (hsmall : ((n.state.periodState.haveVoted X).len : Int) + 1 < maxInt64) :
    ((n.state.periodState.haveVoted X).len : Int) ≤ (n.state.periodState.votes X).total ∧
    (n.state.periodState.votes X).total ≤
      ((n.state.periodState.haveVoted X).len : Int) + ownVotes X n.state.step ∧
    ownVotes X n.state.step ≤ 1 := by
  obtain ⟨_, h2, h3⟩ := (TallyInv_of_reachableVia env n hn).2.2.2 X hsmall
  exact ⟨h2, h3, ownVotes_le_one X _⟩

/-- C2 amended, at the node that has run steps 1 to 4 of period 1: its own
next-vote is in the tally and not in the set. -/
theorem tally_bounds_witness :
    ((afterOwnVote.state.periodState.haveVoted VoteType.next).len : Int) ≤
      (afterOwnVote.state.periodState.votes VoteType.next).total ∧
    (afterOwnVote.state.periodState.votes VoteType.next).total ≤
      ((afterOwnVote.state.periodState.haveVoted VoteType.next).len : Int) +
        ownVotes VoteType.next afterOwnVote.state.step ∧
    ownVotes VoteType.next afterOwnVote.state.step ≤ 1 :=
  tally_bounds sampleEnv afterOwnVote VoteType.next
    (ReachableVia_of_run sampleEnv votesCurrentPeriod ownVoteTrace sampleStart afterOwnVote
      (ReachableVia_sampleStart _) (by decide))
    (by decide)

/-! ## C3: routing a vote by its period -/

/-- C3, the code at the failing input: at startup (period 1, no last period)
a soft-vote for period 7 gets the reply `Success = true`, and the voter is
entered in `haveSoftVoted` of `periodState` although no tally has changed. -/
theorem vote_for_other_period_accepted :
    ∀ env : Env,
      serveVote env sampleStart (mkVote "X" "v" "soft" "7" 1) =
        some ({ sampleStart with
          state := { startState with
            periodState := { startState.periodState with
              haveSoftVoted := GoMap.alloc [("X", true)] } } }, true) := by
  intro env
  rfl

/-! ## C4: the same vote delivered again after a period advance -/

/-- C4, the code at the failing input: the soft-vote of `X` for `v` in period
1 is accepted and counted (`softVotes[v] = 1`); the node then advances to
period 2, where that tally lives in `lastPeriodState`; the same vote delivered
again is accepted again and `lastPeriodState.softVotes[v]` becomes 2. -/
theorem duplicate_vote_after_period_advance :
    (serveVote sampleEnv sampleStart softVoteX).map
        (fun r => (r.2, r.1.state.periodState.softVotes.getD "v" 0)) = some (true, 1) ∧
    serveRun sampleEnv sampleStart advanceTrace = some afterAdvance ∧
    afterAdvance.state.round = 1 ∧ afterAdvance.state.period = 2 ∧
    afterAdvance.state.lastPeriodState.softVotes.getD "v" 0 = 1 ∧
    (serveVote sampleEnv afterAdvance softVoteX).map
        (fun r => (r.2, r.1.state.lastPeriodState.softVotes.getD "v" 0)) = some (true, 2) := by
  decide

/-! ## C5: the halt transition -/

/-- C5. `handleHalt` appends exactly the block `b` to the chain, adds one to
the round (below the largest `int64`), sets period and step to 1 and
`readyForNextRound`, empties `lastPeriodState`, and leaves a fresh
`initPeriodState(1)`, all maps and sets allocated and empty, with
`startingValue = "_|_"`; `tempBlock` and `proposedBlock` are untouched. -/
theorem handleHalt_spec (n : Node) (b : BlockPtr) (hr : fitsInt64 (n.state.round + 1)) :
    (handleHalt n b).blockchain = n.blockchain ++ [b] ∧
    (handleHalt n b).blockchain.length = n.blockchain.length + 1 ∧
    (handleHalt n b).state.round = n.state.round + 1 ∧
    (handleHalt n b).state.period = 1 ∧
    (handleHalt n b).state.step = 1 ∧
    (handleHalt n b).state.readyForNextRound = true ∧
    (handleHalt n b).state.lastPeriodState = PeriodState.zero ∧
    (handleHalt n b).state.periodState = { initPeriodState 1 with startingValue := "_|_" } ∧
    (handleHalt n b).state.periodState.period = 1 ∧
    (handleHalt n b).state.periodState.myCertVote = "" ∧
    (handleHalt n b).state.periodState.proposedValues = GoMap.alloc [] ∧
    (handleHalt n b).state.periodState.valueToBlock = GoMap.alloc [] ∧
    (∀ X, (handleHalt n b).state.periodState.votes X = GoMap.alloc []) ∧
    (∀ X, (handleHalt n b).state.periodState.haveVoted X = GoMap.alloc []) ∧
    (handleHalt n b).state.tempBlock = n.state.tempBlock ∧
    (handleHalt n b).state.proposedBlock = n.state.proposedBlock := by
  refine ⟨rfl, by simp [handleHalt], incr64_of_fits _ hr, rfl, rfl, rfl, rfl, rfl, rfl, rfl, rfl,
    rfl, fun X => by cases X <;> rfl, fun X => by cases X <;> rfl, rfl, rfl⟩

/-- C5 at the startup state, halting on a block with one transaction. -/
theorem handleHalt_spec_witness :
    (handleHalt sampleStart (some { Tx := ["tx"], header := "" })).blockchain =
      [some { Tx := ["tx"], header := "" }] ∧
    (handleHalt sampleStart (some { Tx := ["tx"], header := "" })).state.round = 2 :=
  have h := handleHalt_spec sampleStart (some { Tx := ["tx"], header := "" }) (by decide)
  ⟨h.1, h.2.2.1⟩

/-! ## C6: the period advance of step 5 -/

theorem advanceStep_of_step5 (st : ServerState) (hstep : st.step = 5) : advanceStep st = st := by
  unfold advanceStep
  rw [if_neg]
  simp [hstep]

theorem GoMap.getD_alloc_setEntry_of_ne {α : Type} (l : List (String × α)) (k k2 : String)
    (v z : α) (h : k2 ≠ k) :
    (GoMap.alloc (setEntry l k v)).getD k2 z = (GoMap.alloc l).getD k2 z := by
  simp [GoMap.getD, GoMap.find?, GoMap.entries, findEntry_setEntry_of_ne _ _ _ _ h]

theorem GoMap.alloc_entries_of_isAlloc {α : Type} (m : GoMap α) (h : m.isAlloc = true) :
    GoMap.alloc m.entries = m := by
  cases m with
  | nil => simp [GoMap.isAlloc] at h
  | alloc l => rfl

/-- C6. An agreement-timer tick on a node at step 5 (in agreement, or not:
`readyForNextRound` is not read at step 5). When
`runStep5` returns empty, the node is unchanged (step stays 5). When it
returns a value `v` (with `nextVotes` allocated and no `int64` at its largest
value), the new `lastPeriodState` is the old `periodState` with `nextVotes[v]`
one higher and nothing else changed, the period is one higher, the step is 1,
`periodState` is `initPeriodState` of the new period with
`startingValue = calculateHash(proposedBlock)`, `readyForNextRound` is set,
and round, chain and `proposedBlock` are unchanged. -/
theorem period_advance (env : Env) (n : Node) (hstep : n.state.step = 5) :
    (env.runStep5 n.state.periodState n.state.lastPeriodState env.requiredVotes = "" →
      serveAgreementTimer env n = some n) ∧
    (env.runStep5 n.state.periodState n.state.lastPeriodState env.requiredVotes ≠ "" →
      n.state.periodState.nextVotes.isAlloc = true →
      fitsInt64 (n.state.period + 1) →
      fitsInt64 (n.state.periodState.nextVotes.getD
        (env.runStep5 n.state.periodState n.state.lastPeriodState env.requiredVotes) 0 + 1) →
      ∃ n1 : Node, serveAgreementTimer env n = some n1 ∧
        n1.state.lastPeriodState =
          { n.state.periodState with nextVotes := n1.state.lastPeriodState.nextVotes } ∧
        n1.state.lastPeriodState.nextVotes.getD
            (env.runStep5 n.state.periodState n.state.lastPeriodState env.requiredVotes) 0 =
          n.state.periodState.nextVotes.getD
            (env.runStep5 n.state.periodState n.state.lastPeriodState env.requiredVotes) 0 + 1 ∧
        (∀ k, k ≠ env.runStep5 n.state.periodState n.state.lastPeriodState env.requiredVotes →
          n1.state.lastPeriodState.nextVotes.getD k 0 = n.state.periodState.nextVotes.getD k 0) ∧
        n1.state.period = n.state.period + 1 ∧
        n1.state.step = 1 ∧
        n1.state.periodState =
          { initPeriodState (n.state.period + 1) with
            startingValue := env.calculateHash n.state.proposedBlock } ∧
        n1.state.readyForNextRound = true ∧
        n1.state.round = n.state.round ∧
        n1.blockchain = n.blockchain ∧
        n1.state.proposedBlock = n.state.proposedBlock) := by
  have hadv : ({ n with state := advanceStep n.state } : Node) = n := by
    rw [advanceStep_of_step5 _ hstep]
  constructor
  · intro hv
    unfold serveAgreementTimer
    rw [hadv]
    simp [runCurrentStep, hstep, hv]
  · intro hv halloc hfitp hfitv
    have hp : incr64 n.state.period = n.state.period + 1 := incr64_of_fits _ hfitp
    have hvv := incr64_of_fits _ hfitv
    refine ⟨{ n with
      state := finishPeriod env
        ({ n.state with
          periodState := { n.state.periodState with
            nextVotes := GoMap.alloc (setEntry n.state.periodState.nextVotes.entries
              (env.runStep5 n.state.periodState n.state.lastPeriodState env.requiredVotes)
              (incr64 (n.state.periodState.nextVotes.getD
                (env.runStep5 n.state.periodState n.state.lastPeriodState env.requiredVotes)
                0))) } }) }, ?_, ?_, ?_, ?_, ?_, ?_, ?_, ?_, ?_, ?_, ?_⟩
    · unfold serveAgreementTimer
      rw [hadv]
      simp only [runCurrentStep, hstep]
      simp only [show ¬ ((5 : Int) = 2) by decide, show ¬ ((5 : Int) = 3) by decide,
        show ¬ ((5 : Int) = 4) by decide, if_false, if_true, if_pos hv,
        GoMap.incr_of_isAlloc _ _ halloc]
    · rfl
    · simp only [finishPeriod, GoMap.getD_alloc_setEntry_self]
      exact hvv
    · intro k hk
      simp only [finishPeriod]
      rw [GoMap.getD_alloc_setEntry_of_ne _ _ _ _ _ hk, GoMap.alloc_entries_of_isAlloc _ halloc]
    · exact hp
    · rfl
    · simp only [finishPeriod, hp]
    · rfl
    · rfl
    · rfl
    · rfl

/-- C6 at a node of period 1 in step 5 that holds three next-votes for `_|_`:
the tick moves it to period 2. -/
theorem period_advance_witness :
    ∃ n1 : Node, serveAgreementTimer sampleEnv atStep5 = some n1 ∧
      n1.state.lastPeriodState.nextVotes.getD "_|_" 0 = 4 ∧
      n1.state.period = 2 ∧ n1.state.step = 1 ∧ n1.state.readyForNextRound = true := by
  obtain ⟨n1, h1, _, h3, _, h5, h6, _, h8, _⟩ :=
    (period_advance sampleEnv atStep5 (by decide)).2 (by decide) (by decide)
      (by decide) (by decide)
  exact ⟨n1, h1, h3, h5, h6, h8⟩

/-! ## The bookkeeping invariant along the loop -/

/-- The invariant looks only at the periods, the round and the length of the
chain. -/
theorem BookInv_of_same (n n1 : Node) (hI : BookInv n)
    (h1 : n1.state.periodState.period = n.state.periodState.period)
    (h2 : n1.state.lastPeriodState.period = n.state.lastPeriodState.period)
    (h3 : n1.state.period = n.state.period)
    (h4 : n1.state.round = n.state.round)
    (h5 : n.blockchain.length ≤ n1.blockchain.length) : BookInv n1 := by
  obtain ⟨i1, i2, i3, i4, i5⟩ := hI
  unfold BookInv
  rw [h1, h2, h3, h4]
  exact ⟨i1, i2, i3, i4, by omega⟩

theorem BookInv_of_period_one (n : Node) (h1 : n.state.periodState.period = 1)
    (h2 : n.state.period = 1) (h4 : minInt64 ≤ n.state.round)
    (h5 : n.state.round ≤ (n.blockchain.length : Int) + 1) : BookInv n := by
  refine ⟨by rw [h1, h2], ?_, ?_, h4, h5⟩
  · rw [h2]; decide
  · rw [h2]; intro h; omega

theorem BookInv_startup (env : Env) (chain : List BlockPtr) (n : Node)
    (h : startup env chain = some n) : BookInv n := by
  unfold startup at h
  split at h
  · simp at h
  · split at h
    · simp at h
    · simp only [Option.some.injEq] at h
      subst h
      refine BookInv_of_period_one _ rfl rfl ?_ ?_
      · show minInt64 ≤ (1 : Int)
        decide
      · show (1 : Int) ≤ (chain.length : Int) + 1
        omega

theorem BookInv_handleHalt (n : Node) (b : BlockPtr) (hr : minInt64 ≤ n.state.round)
    (hl : n.state.round ≤ (n.blockchain.length : Int) + 1) : BookInv (handleHalt n b) := by
  refine BookInv_of_period_one _ rfl rfl (minInt64_le_wrap64 _) ?_
  show incr64 n.state.round ≤ ((n.blockchain ++ [b]).length : Int) + 1
  have := incr64_le _ hr
  simp only [List.length_append, List.length_singleton]
  push_cast
  omega

theorem BookInv_finishPeriod (env : Env) (n : Node) (st : ServerState)
    (hI : BookInv { n with state := st }) :
    BookInv { n with state := finishPeriod env st } := by
  obtain ⟨i1, i2, i3, i4, i5⟩ := hI
  simp only at i1 i2 i3 i4 i5
  refine ⟨rfl, ⟨minInt64_le_wrap64 _, wrap64_le_maxInt64 _⟩, ?_, i4, i5⟩
  intro h2
  show st.periodState.period = incr64 st.period - 1
  have h2 : 2 ≤ incr64 st.period := h2
  rw [i1]
  unfold fitsInt64 minInt64 maxInt64 at i2
  unfold incr64 wrap64 at h2 ⊢
  omega

theorem tallyVote_period (X : VoteType) (ps lps ps1 lps1 : PeriodState) (votePeriod : Int)
    (v : String) (h : tallyVote X ps lps votePeriod v = some (ps1, lps1)) :
    ps1.period = ps.period ∧ lps1.period = lps.period := by
  unfold tallyVote at h
  split at h
  · split at h
    · simp at h
    · simp only [Option.some.injEq, Prod.mk.injEq] at h
      rw [← h.1, ← h.2, period_setVotes]
      exact ⟨rfl, rfl⟩
  · split at h
    · split at h
      · simp at h
      · simp only [Option.some.injEq, Prod.mk.injEq] at h
        rw [← h.1, ← h.2, period_setVotes]
        exact ⟨rfl, rfl⟩
    · simp only [Option.some.injEq, Prod.mk.injEq] at h
      rw [← h.1, ← h.2]
      exact ⟨rfl, rfl⟩

theorem BookInv_roundTimer (env : Env) (n n1 : Node) (hI : BookInv n)
    (h : serveRoundTimer env n = some n1) : BookInv n1 := by
  unfold serveRoundTimer at h
  simp only at h
  split at h
  · split at h
    · split at h
      · simp at h
      · split at h
        · simp at h
        · simp only [Option.some.injEq] at h
          subst h
          exact BookInv_of_same _ _ hI rfl rfl rfl rfl (le_refl _)
    · simp only [Option.some.injEq] at h
      subst h
      exact BookInv_of_same _ _ hI rfl rfl rfl rfl (le_refl _)
  · simp only [Option.some.injEq] at h
    subst h
    exact hI

theorem BookInv_proposeBlock (env : Env) (n n1 : Node) (arg : ProposeBlockArgs) (b : Bool)
    (hI : BookInv n) (h : serveProposeBlock env n arg = some (n1, b)) : BookInv n1 := by
  unfold serveProposeBlock at h
  simp only at h
  split at h
  · simp only [Option.some.injEq, Prod.mk.injEq] at h
    rw [← h.1]; exact hI
  · split at h
    · simp at h
    · split at h
      · split at h
        · simp at h
        · split at h
          · simp at h
          · simp only [Option.some.injEq, Prod.mk.injEq] at h
            rw [← h.1]
            exact BookInv_of_same _ _ hI rfl rfl rfl rfl (le_refl _)
      · simp only [Option.some.injEq, Prod.mk.injEq] at h
        rw [← h.1]; exact hI

theorem BookInv_requestBlockChainResponse (n n1 : Node) (bcr : RequestBlockChainResponse)
    (hI : BookInv n) (h : serveRequestBlockChainResponse n bcr = some n1) : BookInv n1 := by
  unfold serveRequestBlockChainResponse at h
  split at h
  · simp only [Option.some.injEq] at h
    rw [← h]; exact hI
  · split at h
    · simp at h
    · simp only at h
      split at h
      · rename_i ret _ _
        simp only [Option.some.injEq] at h
        rw [← h]
        refine BookInv_of_period_one _ rfl rfl ?_ ?_
        · show minInt64 ≤ (ret.Blockchain.length : Int)
          unfold minInt64; omega
        · show (ret.Blockchain.length : Int) ≤ (ret.Blockchain.length : Int) + 1
          omega
      · simp only [Option.some.injEq] at h
        rw [← h]; exact hI

theorem BookInv_agreementTimer (env : Env) (n n1 : Node) (hI : BookInv n)
    (h : serveAgreementTimer env n = some n1) : BookInv n1 := by
  have hA : BookInv { n with state := advanceStep n.state } := by
    apply BookInv_of_same _ _ hI <;> (unfold advanceStep; split) <;> rfl
  rcases runCurrentStep_cases env _ n1 h with h0 | ⟨ps1, blk, h0⟩ | ⟨k, m, _, _, _, _, h0⟩ |
    ⟨X, k, m, myc, _, _, h0⟩
  · rw [h0]; exact hA
  · rw [h0]
    exact BookInv_handleHalt _ _ hA.2.2.2.1 hA.2.2.2.2
  · rw [h0]
    exact BookInv_finishPeriod env _ _
      (BookInv_of_same _ _ hA rfl rfl rfl rfl (le_refl _))
  · rw [h0]
    refine BookInv_of_same _ _ hA ?_ rfl rfl rfl (le_refl _)
    exact period_setVotes (advanceStep n.state).periodState X m

theorem BookInv_vote (env : Env) (n n1 : Node) (vc : VoteArgs) (b : Bool) (hI : BookInv n)
    (h : serveVote env n vc = some (n1, b)) : BookInv n1 := by
  rcases serveVote_cases env n n1 vc b h with ⟨h0, _⟩ |
    ⟨_, msg, v, ty, p, rest, X, ps1, lps1, hv, _, _, _, _, _, htally, _, hn1⟩
  · rw [h0]; exact hI
  · obtain ⟨hp1, hp2⟩ := tallyVote_period _ _ _ _ _ _ _ htally
    have hA : BookInv (afterVote n X ps1 lps1 hv) := by
      refine BookInv_of_same _ _ hI ?_ hp2 rfl rfl (le_refl _)
      show (ps1.setHaveVoted X hv).period = _
      rw [period_setHaveVoted, hp1]
    rcases hn1 with hn1 | ⟨blk, hn1⟩
    · rw [hn1]; exact hA
    · rw [hn1]; exact BookInv_handleHalt _ _ hA.2.2.2.1 hA.2.2.2.2

theorem BookInv_serveStep (env : Env) (n n1 : Node) (e : Event) (hI : BookInv n)
    (h : serveStep env n e = some n1) : BookInv n1 := by
  cases e with
  | roundTimer => exact BookInv_roundTimer env n n1 hI h
  | agreementTimer => exact BookInv_agreementTimer env n n1 hI h
  | command op =>
    simp only [serveStep, Option.some.injEq] at h
    rw [← h]
    exact BookInv_of_same _ _ hI (by unfold serveCommand; split <;> rfl)
      (by unfold serveCommand; split <;> rfl) (by unfold serveCommand; split <;> rfl)
      (by unfold serveCommand; split <;> rfl) (le_refl _)
  | appendBlock arg =>
    simp only [serveStep, Option.some.injEq] at h
    rw [← h]
    unfold serveAppendBlock
    split
    · rename_i hlen
      exact BookInv_of_same _ _ hI rfl rfl rfl rfl (le_of_lt hlen)
    · exact hI
  | appendBlockResponse => simp only [serveStep, Option.some.injEq] at h; rw [← h]; exact hI
  | appendTransaction arg =>
    simp only [serveStep, Option.some.injEq] at h
    rw [← h]
    exact BookInv_of_same _ _ hI rfl rfl rfl rfl (le_refl _)
  | appendTransactionResponse =>
    simp only [serveStep, Option.some.injEq] at h; rw [← h]; exact hI
  | proposeBlock arg =>
    simp only [serveStep, Option.map_eq_some'] at h
    obtain ⟨⟨n2, b⟩, h2, h3⟩ := h
    simp only at h3
    subst h3
    exact BookInv_proposeBlock env n n2 arg b hI h2
  | proposeBlockResponse => simp only [serveStep, Option.some.injEq] at h; rw [← h]; exact hI
  | vote arg =>
    simp only [serveStep, Option.map_eq_some'] at h
    obtain ⟨⟨n2, b⟩, h2, h3⟩ := h
    simp only at h3
    subst h3
    exact BookInv_vote env n n2 arg b hI h2
  | voteResponse => simp only [serveStep, Option.some.injEq] at h; rw [← h]; exact hI
  | requestBlockChain => simp only [serveStep, Option.some.injEq] at h; rw [← h]; exact hI
  | requestBlockChainResponse bcr => exact BookInv_requestBlockChainResponse n n1 bcr hI h

theorem BookInv_of_reachable (env : Env) (n : Node) (h : Reachable env n) : BookInv n := by
  induction h with
  | init chain n h => exact BookInv_startup env chain n h
  | step n n1 e _ h ih => exact BookInv_serveStep env n n1 e ih h

/-! ## C7: period bookkeeping -/

/-- C7. In every state reachable from startup through any events of the loop,
`periodState.period` is the node's period, and from period 2 on
`lastPeriodState.period` is the period before. -/
theorem period_bookkeeping (env : Env) (n : Node) (h : Reachable env n) :
    n.state.periodState.period = n.state.period ∧
    (2 ≤ n.state.period → n.state.lastPeriodState.period = n.state.period - 1) :=
  have hI := BookInv_of_reachable env n h
  ⟨hI.1, hI.2.2.1⟩

/-- C7 at the node that has advanced to period 2 of round 1. -/
theorem period_bookkeeping_witness :
    afterAdvance.state.periodState.period = afterAdvance.state.period ∧
    (2 ≤ afterAdvance.state.period →
      afterAdvance.state.lastPeriodState.period = afterAdvance.state.period - 1) :=
  period_bookkeeping sampleEnv afterAdvance
    (Reachable_of_run sampleEnv advanceTrace sampleStart afterAdvance Reachable_sampleStart
      (by decide))

/-! ## C8: chain catch-up -/

/-- C8. An error-free `RequestBlockChain` response carrying the chain `c`:
when `c` is longer than the local chain the node adopts it, with round
`len(c)`, period 1, step 1, `readyForNextRound` set, `lastPeriodState` empty
and `periodState` a fresh `initPeriodState(1)` with `startingValue = "_|_"`;
when `c` is not longer, and when the response carries an error, the node is
unchanged. -/
theorem chain_catch_up (n : Node) (c : List BlockPtr) (sender peer : String) :
    (n.blockchain.length < c.length →
      serveRequestBlockChainResponse n (chainResponse c sender peer) = some (caughtUp n c) ∧
      (caughtUp n c).blockchain = c ∧
      (caughtUp n c).state.round = (c.length : Int) ∧
      (caughtUp n c).state.period = 1 ∧ (caughtUp n c).state.step = 1 ∧
      (caughtUp n c).state.readyForNextRound = true ∧
      (caughtUp n c).state.lastPeriodState = PeriodState.zero ∧
      (caughtUp n c).state.periodState = { initPeriodState 1 with startingValue := "_|_" } ∧
      (∀ X, (caughtUp n c).state.periodState.votes X = GoMap.alloc []) ∧
      (∀ X, (caughtUp n c).state.periodState.haveVoted X = GoMap.alloc [])) ∧
    (c.length ≤ n.blockchain.length →
      serveRequestBlockChainResponse n (chainResponse c sender peer) = some n) ∧
    (∀ (ret : Option RequestBlockChainRet) (e : String),
      serveRequestBlockChainResponse n { ret := ret, err := some e, peer := peer } = some n) := by
  refine ⟨fun hlt => ⟨?_, rfl, rfl, rfl, rfl, rfl, rfl, rfl, fun X => by cases X <;> rfl,
    fun X => by cases X <;> rfl⟩, fun hle => ?_, fun ret e => rfl⟩
  · simp only [serveRequestBlockChainResponse, chainResponse]
    rw [if_pos (show c.length > n.blockchain.length from hlt)]
    rfl
  · simp only [serveRequestBlockChainResponse, chainResponse]
    rw [if_neg (show ¬ c.length > n.blockchain.length from not_lt.mpr hle)]

/-- C8 on the scenario of the specification: a node at round 1 with an empty
chain receives a chain of three blocks and ends at round 3. -/
theorem chain_catch_up_witness :
    serveRequestBlockChainResponse sampleStart (chainResponse chainOfThree "3001" "localhost:3001") =
      some (caughtUp sampleStart chainOfThree) ∧
    (caughtUp sampleStart chainOfThree).state.round = 3 :=
  have h := (chain_catch_up sampleStart chainOfThree "3001" "localhost:3001").1 (by decide)
  ⟨h.1, h.2.2.1⟩

/-! ## C9: the round under catch-up -/

/-- C9. In every state reachable from startup the round is at most the length
of the chain plus one, and handling a `RequestBlockChain` response there never
yields a smaller round. -/
theorem catch_up_round_monotone (env : Env) (n n1 : Node) (bcr : RequestBlockChainResponse)
    (hn : Reachable env n) (h : serveRequestBlockChainResponse n bcr = some n1) :
    n.state.round ≤ (n.blockchain.length : Int) + 1 ∧ n.state.round ≤ n1.state.round := by
  have hI := BookInv_of_reachable env n hn
  refine ⟨hI.2.2.2.2, ?_⟩
  unfold serveRequestBlockChainResponse at h
  split at h
  · simp only [Option.some.injEq] at h
    rw [← h]
  · split at h
    · simp at h
    · simp only at h
      split at h
      · rename_i ret _ hlen
        simp only [Option.some.injEq] at h
        rw [← h]
        show n.state.round ≤ (ret.Blockchain.length : Int)
        have := hI.2.2.2.2
        omega
      · simp only [Option.some.injEq] at h
        rw [← h]

/-- C9 at the node that has advanced to period 2 of round 1 and then receives
a chain of three blocks. -/
theorem catch_up_round_monotone_witness :
    afterAdvance.state.round ≤ (afterAdvance.blockchain.length : Int) + 1 ∧
    afterAdvance.state.round ≤ (caughtUp afterAdvance chainOfThree).state.round :=
  catch_up_round_monotone sampleEnv afterAdvance (caughtUp afterAdvance chainOfThree)
    (chainResponse chainOfThree "3001" "localhost:3001")
    (Reachable_of_run sampleEnv advanceTrace sampleStart afterAdvance Reachable_sampleStart
      (by decide))
    (by decide)

/-! ## C10: the quorum -/

/-- C10, refuted as stated. With six participants, this node and five peers,
startup computes `requiredVotes = 3`, and `2 * floor(6 / 3) + 1` is 5. -/
theorem quorum_size_counterexample :
    startupRequiredVotes ["h:1", "h:2", "h:3", "h:4", "h:5"] = some 3 ∧
    ¬ ∀ (N : Nat) (peers : List String), peers.length + 1 = N → 4 ≤ N →
        (∀ peer ∈ peers, (splitPort peer).isSome = true) →
        startupRequiredVotes peers = some (2 * ((N : Int) / 3) + 1) := by
  refine ⟨by decide, fun hall => ?_⟩
  have h := hall 6 ["h:1", "h:2", "h:3", "h:4", "h:5"] rfl (by decide) (by decide)
  revert h
  decide

/-- C10, amended. For `N ≥ 4` participants, this node and its `N - 1` peers
(each given as `host:port`), startup does not exit and computes
`requiredVotes = 2 * t + 1` with `t = floor((N - 1) / 3)`, the number of peers
over 3; this is `2 * floor(N / 3) + 1` exactly when `N` is not a multiple of
3. -/
theorem quorum_size (N : Nat) (peers : List String) (hp : peers.length + 1 = N) (hN : 4 ≤ N)
    (hports : ∀ peer ∈ peers, (splitPort peer).isSome = true) :
    startupRequiredVotes peers = some (2 * (((N : Int) - 1) / 3) + 1) ∧
    (startupRequiredVotes peers = some (2 * ((N : Int) / 3) + 1) ↔ N % 3 ≠ 0) := by
  have hpc : peerCount peers = (N : Int) - 1 := by
    unfold peerCount
    omega
  have hs : startupRequiredVotes peers = some (2 * (((N : Int) - 1) / 3) + 1) := by
    unfold startupRequiredVotes
    rw [if_pos (List.all_eq_true.mpr hports), hpc, if_neg (by omega)]
  refine ⟨hs, ?_⟩
  rw [hs]
  simp only [Option.some.injEq]
  omega

/-- C10 amended, for four participants: the quorum is 3. -/
theorem quorum_size_witness :
    startupRequiredVotes sampleEnv.peers = some (2 * ((((4 : Nat) : Int) - 1) / 3) + 1) ∧
    (startupRequiredVotes sampleEnv.peers = some (2 * (((4 : Nat) : Int) / 3) + 1) ↔
      4 % 3 ≠ 0) :=
  quorum_size 4 sampleEnv.peers rfl (by decide) (by decide)

/-! ## C11: faults of the vote handler -/

/-- C11, the code at the failing inputs. At startup `lastPeriodState` is the
zero value, with period 0 and nil maps. A soft-vote of round 1 whose period
string is `"0"`, or is not a number (it parses to 0), is routed to
`lastPeriodState` and the handler faults on the write to the nil map
`softVotes`; a vote whose payload has two strings faults on the index 2. In
each case no reply is sent. -/
theorem vote_handler_faults :
    ∀ env : Env,
      startState.lastPeriodState.period = 0 ∧
      startState.lastPeriodState.softVotes = GoMap.nil ∧
      serveVote env sampleStart (mkVote "X" "v" "soft" "0" 1) = none ∧
      serveVote env sampleStart (mkVote "X" "v" "soft" "abc" 1) = none ∧
      serveVote env sampleStart (mkVote "X" "v" "cert" "0" 1) = none ∧
      serveVote env sampleStart (mkVote "X" "v" "next" "" 1) = none ∧
      serveVote env sampleStart shortVote = none := by
  intro env
  exact ⟨rfl, rfl, rfl, rfl, rfl, rfl, rfl⟩

/-! ## C12: when `proposedBlock` changes -/

theorem ProposedThisRound_of_run (env : Env) (es : List Event) :
    ∀ n n1 : Node, ProposedThisRound env n → serveRunSameRound env n es = some n1 →
      ProposedThisRound env n1 := by
  induction es with
  | nil =>
    intro n n1 hn h
    simp only [serveRunSameRound, Option.some.injEq] at h
    rw [← h]; exact hn
  | cons e es ih =>
    intro n n1 hn h
    simp only [serveRunSameRound] at h
    split at h
    · simp at h
    · rename_i n2 h2
      split at h
      · rename_i hround
        exact ih n2 n1 (ProposedThisRound.step n n2 e hn h2 hround) h
      · simp at h

/-- C12, refuted as stated. In round 1 the first round-timer tick sets
`proposedBlock` to the block prepared from the empty `tempBlock`. The node
goes through period 1, advances to period 2 in step 5 and receives a
transaction, all in round 1. The next round-timer tick, still in round 1,
replaces `proposedBlock` by the block prepared from the `tempBlock` that now
holds the transaction. -/
theorem proposedBlock_frozen_counterexample :
    ¬ ∀ (env : Env) (n n1 : Node) (e : Event), ProposedThisRound env n →
        serveStep env n e = some n1 → n1.state.round = n.state.round →
        n1.state.proposedBlock = n.state.proposedBlock := by
  intro hall
  have h0 : ProposedThisRound sampleEnv afterPropose :=
    ProposedThisRound.propose sampleStart afterPropose Reachable_sampleStart (by decide)
      (by decide)
  have h1 : ProposedThisRound sampleEnv inPeriodTwo :=
    ProposedThisRound_of_run sampleEnv toPeriodTwoTrace afterPropose inPeriodTwo h0 (by decide)
  have hbad := hall sampleEnv inPeriodTwo afterRepropose Event.roundTimer h1 (by decide)
    (by decide)
  revert hbad
  decide

theorem proposedBlock_advanceStep (st : ServerState) :
    (advanceStep st).proposedBlock = st.proposedBlock := by
  unfold advanceStep; split <;> rfl

theorem proposedBlock_runCurrentStep (env : Env) (n n1 : Node)
    (h : runCurrentStep env n = some n1) :
    n1.state.proposedBlock = n.state.proposedBlock := by
  rcases runCurrentStep_cases env n n1 h with h0 | ⟨ps1, blk, h0⟩ | ⟨k, m, _, _, _, _, h0⟩ |
    ⟨X, k, m, myc, _, _, h0⟩ <;> rw [h0] <;> rfl

theorem proposedBlock_serveVote (env : Env) (n n1 : Node) (vc : VoteArgs) (b : Bool)
    (h : serveVote env n vc = some (n1, b)) :
    n1.state.proposedBlock = n.state.proposedBlock := by
  rcases serveVote_cases env n n1 vc b h with ⟨h0, _⟩ |
    ⟨_, msg, v, ty, p, rest, X, ps1, lps1, hv, _, _, _, _, _, _, _, hn1⟩
  · rw [h0]
  · rcases hn1 with hn1 | ⟨blk, hn1⟩ <;> rw [hn1] <;> rfl

theorem proposedBlock_serveProposeBlock (env : Env) (n n1 : Node) (arg : ProposeBlockArgs)
    (b : Bool) (h : serveProposeBlock env n arg = some (n1, b)) :
    n1.state.proposedBlock = n.state.proposedBlock := by
  unfold serveProposeBlock at h
  simp only at h
  split at h
  · simp only [Option.some.injEq, Prod.mk.injEq] at h
    rw [← h.1]
  · split at h
    · simp at h
    · split at h
      · split at h
        · simp at h
        · split at h
          · simp at h
          · simp only [Option.some.injEq, Prod.mk.injEq] at h
            rw [← h.1]
      · simp only [Option.some.injEq, Prod.mk.injEq] at h
        rw [← h.1]

theorem proposedBlock_serveRequestBlockChainResponse (n n1 : Node)
    (bcr : RequestBlockChainResponse) (h : serveRequestBlockChainResponse n bcr = some n1) :
    n1.state.proposedBlock = n.state.proposedBlock := by
  unfold serveRequestBlockChainResponse at h
  split at h
  · simp only [Option.some.injEq] at h
    rw [← h]
  · split at h
    · simp at h
    · simp only at h
      split at h
      · simp only [Option.some.injEq] at h
        rw [← h]
      · simp only [Option.some.injEq] at h
        rw [← h]

/-- The round-timer case: with `readyForNextRound` it prepares the block anew
and clears the flag, without it the node is unchanged. -/
theorem serveRoundTimer_proposedBlock (env : Env) (n n1 : Node)
    (h : serveRoundTimer env n = some n1) :
    (n.state.readyForNextRound = true →
      n1.state.proposedBlock = env.prepareBlock n.state.tempBlock n.blockchain ∧
      n1.state.readyForNextRound = false) ∧
    (n.state.readyForNextRound = false → n1 = n) := by
  unfold serveRoundTimer at h
  simp only at h
  split at h
  · rename_i hr
    refine ⟨fun _ => ?_, fun hf => (by rw [hr] at hf; cases hf)⟩
    split at h
    · split at h
      · simp at h
      · split at h
        · simp at h
        · simp only [Option.some.injEq] at h
          rw [← h]
          exact ⟨rfl, rfl⟩
    · simp only [Option.some.injEq] at h
      rw [← h]
      exact ⟨rfl, rfl⟩
  · rename_i hr
    simp only [Option.some.injEq] at h
    refine ⟨fun ht => absurd ht hr, fun _ => h.symm⟩

/-- C12, amended. One pass of the loop replaces `proposedBlock` only in the
round-timer case taken with `readyForNextRound` set: that tick sets it to
`prepareBlock(tempBlock, chain)` and clears the flag; every other pass, and a
round-timer tick with the flag clear, leaves `proposedBlock` as it is. The
flag is set at startup and by a halt, a catch-up and the step-5 period
advance, so the block is frozen from one step 1 to the next, a period, and is
prepared again from the current `tempBlock` in the period that follows. -/
theorem proposedBlock_frame (env : Env) (n n1 : Node) (e : Event)
    (h : serveStep env n e = some n1) :
    (e = Event.roundTimer → n.state.readyForNextRound = true →
      n1.state.proposedBlock = env.prepareBlock n.state.tempBlock n.blockchain ∧
      n1.state.readyForNextRound = false) ∧
    (e ≠ Event.roundTimer ∨ n.state.readyForNextRound = false →
      n1.state.proposedBlock = n.state.proposedBlock) := by
  cases e with
  | roundTimer =>
    have hr := serveRoundTimer_proposedBlock env n n1 h
    refine ⟨fun _ ht => hr.1 ht, fun hc => ?_⟩
    rcases hc with hc | hc
    · exact absurd rfl hc
    · rw [hr.2 hc]
  | agreementTimer =>
    refine ⟨fun he => (by cases he), fun _ => ?_⟩
    have h1 := proposedBlock_runCurrentStep env _ n1 h
    rw [h1]
    exact proposedBlock_advanceStep n.state
  | command op =>
    refine ⟨fun he => (by cases he), fun _ => ?_⟩
    simp only [serveStep, Option.some.injEq] at h
    rw [← h]
    unfold serveCommand
    split <;> rfl
  | appendBlock arg =>
    refine ⟨fun he => (by cases he), fun _ => ?_⟩
    simp only [serveStep, Option.some.injEq] at h
    rw [← h]
    unfold serveAppendBlock
    split <;> rfl
  | appendBlockResponse =>
    refine ⟨fun he => (by cases he), fun _ => ?_⟩
    simp only [serveStep, Option.some.injEq] at h; rw [← h]
  | appendTransaction arg =>
    refine ⟨fun he => (by cases he), fun _ => ?_⟩
    simp only [serveStep, Option.some.injEq] at h
    rw [← h]
    rfl
  | appendTransactionResponse =>
    refine ⟨fun he => (by cases he), fun _ => ?_⟩
    simp only [serveStep, Option.some.injEq] at h; rw [← h]
  | proposeBlock arg =>
    refine ⟨fun he => (by cases he), fun _ => ?_⟩
    simp only [serveStep, Option.map_eq_some'] at h
    obtain ⟨⟨n2, b⟩, h2, h3⟩ := h
    simp only at h3
    subst h3
    exact proposedBlock_serveProposeBlock env n n2 arg b h2
  | proposeBlockResponse =>
    refine ⟨fun he => (by cases he), fun _ => ?_⟩
    simp only [serveStep, Option.some.injEq] at h; rw [← h]
  | vote arg =>
    refine ⟨fun he => (by cases he), fun _ => ?_⟩
    simp only [serveStep, Option.map_eq_some'] at h
    obtain ⟨⟨n2, b⟩, h2, h3⟩ := h
    simp only at h3
    subst h3
    exact proposedBlock_serveVote env n n2 arg b h2
  | voteResponse =>
    refine ⟨fun he => (by cases he), fun _ => ?_⟩
    simp only [serveStep, Option.some.injEq] at h; rw [← h]
  | requestBlockChain =>
    refine ⟨fun he => (by cases he), fun _ => ?_⟩
    simp only [serveStep, Option.some.injEq] at h; rw [← h]
  | requestBlockChainResponse bcr =>
    refine ⟨fun he => (by cases he), fun _ => ?_⟩
    exact proposedBlock_serveRequestBlockChainResponse n n1 bcr h

/-- C12 amended, at the round-timer tick taken in period 2 of round 1 with a
transaction staged: the block is prepared again and now holds it. -/
theorem proposedBlock_frame_witness :
    afterRepropose.state.proposedBlock =
      sampleEnv.prepareBlock inPeriodTwo.state.tempBlock inPeriodTwo.blockchain ∧
    afterRepropose.state.readyForNextRound = false ∧
    afterRepropose.state.proposedBlock = some { Tx := ["tx"], header := "" } ∧
    inPeriodTwo.state.proposedBlock = some { Tx := [], header := "" } :=
  have h := (proposedBlock_frame sampleEnv inPeriodTwo afterRepropose Event.roundTimer
    (by decide)).1 rfl (by decide)
  ⟨h.1, h.2, by decide, by decide⟩

/-! ## C13: the step cursor -/

theorem incr64_ne_self (x : Int) : incr64 x ≠ x := by
  unfold incr64 wrap64
  omega

theorem step_le_advanceStep (st : ServerState) : st.step ≤ (advanceStep st).step := by
  unfold advanceStep
  split
  · rename_i hc
    simp only [Bool.and_eq_true, Bool.not_eq_true', decide_eq_true_eq] at hc
    show st.step ≤ incr64 st.step
    have h5 := hc.2
    unfold incr64 wrap64
    omega
  · exact le_refl _

theorem round_advanceStep (st : ServerState) : (advanceStep st).round = st.round := by
  unfold advanceStep; split <;> rfl

theorem period_advanceStep (st : ServerState) : (advanceStep st).period = st.period := by
  unfold advanceStep; split <;> rfl

/-- The passes of the loop that can lower the step while the round stays as
it is, in any state: the step-5 period advance, which sets the step to 1 and
changes the period, and a catch-up response that adopts a longer chain. Every
other pass that leaves the round unchanged leaves the step the same or higher;
a halt always changes the round. -/
theorem step_lowered_only_by (env : Env) (n n1 : Node) (e : Event)
    (h : serveStep env n e = some n1) (hround : n1.state.round = n.state.round) :
    (n.state.step ≤ n1.state.step ∨
      (e = Event.agreementTimer ∧ n1.state.step = 1 ∧ n1.state.period = incr64 n.state.period ∧
        n1.state.period ≠ n.state.period) ∨
      (∃ bcr ret, e = Event.requestBlockChainResponse bcr ∧ bcr.err = none ∧
        bcr.ret = some ret ∧ n.blockchain.length < ret.Blockchain.length ∧
        n1 = caughtUp n ret.Blockchain)) ∧
    (n1.state.period = n.state.period →
      n.state.step ≤ n1.state.step ∨
      (∃ bcr ret, e = Event.requestBlockChainResponse bcr ∧ bcr.err = none ∧
        bcr.ret = some ret ∧ n.blockchain.length < ret.Blockchain.length ∧
        n1 = caughtUp n ret.Blockchain)) := by
  have main : n.state.step ≤ n1.state.step ∨
      (e = Event.agreementTimer ∧ n1.state.step = 1 ∧ n1.state.period = incr64 n.state.period ∧
        n1.state.period ≠ n.state.period) ∨
      (∃ bcr ret, e = Event.requestBlockChainResponse bcr ∧ bcr.err = none ∧
        bcr.ret = some ret ∧ n.blockchain.length < ret.Blockchain.length ∧
        n1 = caughtUp n ret.Blockchain) := by
    cases e with
    | roundTimer =>
      left
      simp only [serveStep] at h
      unfold serveRoundTimer at h
      simp only at h
      split at h
      · split at h
        · split at h
          · simp at h
          · split at h
            · simp at h
            · simp only [Option.some.injEq] at h
              rw [← h]
        · simp only [Option.some.injEq] at h
          rw [← h]
      · simp only [Option.some.injEq] at h
        rw [← h]
    | agreementTimer =>
      have hadv := step_le_advanceStep n.state
      rcases runCurrentStep_cases env _ n1 h with h0 | ⟨ps1, blk, h0⟩ |
        ⟨k, m, _, _, _, _, h0⟩ | ⟨X, k, m, myc, _, _, h0⟩
      · left; rw [h0]; exact hadv
      · exfalso
        rw [h0] at hround
        have hr : incr64 (advanceStep n.state).round = n.state.round := hround
        rw [round_advanceStep] at hr
        exact incr64_ne_self _ hr
      · right; left
        rw [h0]
        refine ⟨rfl, rfl, ?_, ?_⟩
        · show incr64 (advanceStep n.state).period = incr64 n.state.period
          rw [period_advanceStep]
        · show incr64 (advanceStep n.state).period ≠ n.state.period
          rw [period_advanceStep]
          exact incr64_ne_self _
      · left; rw [h0]; exact hadv
    | command op =>
      left
      simp only [serveStep, Option.some.injEq] at h
      rw [← h]
      unfold serveCommand
      split <;> exact le_refl _
    | appendBlock arg =>
      left
      simp only [serveStep, Option.some.injEq] at h
      rw [← h]
      unfold serveAppendBlock
      split <;> exact le_refl _
    | appendBlockResponse =>
      left; simp only [serveStep, Option.some.injEq] at h; rw [← h]
    | appendTransaction arg =>
      left
      simp only [serveStep, Option.some.injEq] at h
      rw [← h]
      exact le_refl _
    | appendTransactionResponse =>
      left; simp only [serveStep, Option.some.injEq] at h; rw [← h]
    | proposeBlock arg =>
      left
      simp only [serveStep, Option.map_eq_some'] at h
      obtain ⟨⟨n2, b⟩, h2, h3⟩ := h
      simp only at h3
      subst h3
      unfold serveProposeBlock at h2
      simp only at h2
      split at h2
      · simp only [Option.some.injEq, Prod.mk.injEq] at h2
        rw [← h2.1]
      · split at h2
        · simp at h2
        · split at h2
          · split at h2
            · simp at h2
            · split at h2
              · simp at h2
              · simp only [Option.some.injEq, Prod.mk.injEq] at h2
                rw [← h2.1]
          · simp only [Option.some.injEq, Prod.mk.injEq] at h2
            rw [← h2.1]
    | proposeBlockResponse =>
      left; simp only [serveStep, Option.some.injEq] at h; rw [← h]
    | vote arg =>
      left
      simp only [serveStep, Option.map_eq_some'] at h
      obtain ⟨⟨n2, b⟩, h2, h3⟩ := h
      simp only at h3
      subst h3
      rcases serveVote_cases env n n2 arg b h2 with ⟨h0, _⟩ |
        ⟨_, msg, v, ty, p, rest, X, ps1, lps1, hv, _, _, _, _, _, _, _, hn1⟩
      · rw [h0]
      · rcases hn1 with hn1 | ⟨blk, hn1⟩
        · rw [hn1]; exact le_refl _
        · exfalso
          rw [hn1] at hround
          exact incr64_ne_self _ hround
    | voteResponse =>
      left; simp only [serveStep, Option.some.injEq] at h; rw [← h]
    | requestBlockChain =>
      left; simp only [serveStep, Option.some.injEq] at h; rw [← h]
    | requestBlockChainResponse bcr =>
      simp only [serveStep] at h
      unfold serveRequestBlockChainResponse at h
      split at h
      · left
        simp only [Option.some.injEq] at h
        rw [← h]
      · rename_i herr
        split at h
        · simp at h
        · rename_i ret hret
          simp only at h
          split at h
          · rename_i hlen
            right; right
            simp only [Option.some.injEq] at h
            exact ⟨bcr, ret, rfl, herr, hret, hlen, h.symm⟩
          · left
            simp only [Option.some.injEq] at h
            rw [← h]
  refine ⟨main, fun hperiod => ?_⟩
  rcases main with h1 | ⟨_, _, _, hne⟩ | h3
  · exact Or.inl h1
  · exact absurd hperiod hne
  · exact Or.inr h3

/-- What one pass of the loop does to the round and the chain: it leaves the
round and does not shorten the chain; or it is a halt, one more round and one
more block; or it is a catch-up, which adopts a longer chain and sets the
round to its length. -/
theorem serveStep_round_cases (env : Env) (n n1 : Node) (e : Event)
    (h : serveStep env n e = some n1) :
    (n1.state.round = n.state.round ∧ n.blockchain.length ≤ n1.blockchain.length) ∨
    (n1.state.round = incr64 n.state.round ∧
      n1.blockchain.length = n.blockchain.length + 1) ∨
    (n1.state.round = (n1.blockchain.length : Int) ∧
      n.blockchain.length < n1.blockchain.length) := by
  cases e with
  | roundTimer =>
    left
    simp only [serveStep] at h
    unfold serveRoundTimer at h
    simp only at h
    split at h
    · split at h
      · split at h
        · simp at h
        · split at h
          · simp at h
          · simp only [Option.some.injEq] at h
            rw [← h]
            exact ⟨rfl, le_refl _⟩
      · simp only [Option.some.injEq] at h
        rw [← h]
        exact ⟨rfl, le_refl _⟩
    · simp only [Option.some.injEq] at h
      rw [← h]
      exact ⟨rfl, le_refl _⟩
  | agreementTimer =>
    rcases runCurrentStep_cases env _ n1 h with h0 | ⟨ps1, blk, h0⟩ |
      ⟨k, m, _, _, _, _, h0⟩ | ⟨X, k, m, myc, _, _, h0⟩
    · left; rw [h0]; exact ⟨round_advanceStep _, le_refl _⟩
    · right; left
      rw [h0]
      refine ⟨?_, ?_⟩
      · show incr64 (advanceStep n.state).round = incr64 n.state.round
        rw [round_advanceStep]
      · show (n.blockchain ++ [blk]).length = n.blockchain.length + 1
        simp
    · left; rw [h0]; exact ⟨round_advanceStep _, le_refl _⟩
    · left; rw [h0]; exact ⟨round_advanceStep _, le_refl _⟩
  | command op =>
    left
    simp only [serveStep, Option.some.injEq] at h
    rw [← h]
    unfold serveCommand
    split <;> exact ⟨rfl, le_refl _⟩
  | appendBlock arg =>
    left
    simp only [serveStep, Option.some.injEq] at h
    rw [← h]
    unfold serveAppendBlock
    split
    · rename_i hlen
      exact ⟨rfl, le_of_lt hlen⟩
    · exact ⟨rfl, le_refl _⟩
  | appendBlockResponse =>
    left; simp only [serveStep, Option.some.injEq] at h; rw [← h]; exact ⟨rfl, le_refl _⟩
  | appendTransaction arg =>
    left
    simp only [serveStep, Option.some.injEq] at h
    rw [← h]
    exact ⟨rfl, le_refl _⟩
  | appendTransactionResponse =>
    left; simp only [serveStep, Option.some.injEq] at h; rw [← h]; exact ⟨rfl, le_refl _⟩
  | proposeBlock arg =>
    left
    simp only [serveStep, Option.map_eq_some'] at h
    obtain ⟨⟨n2, b⟩, h2, h3⟩ := h
    simp only at h3
    subst h3
    unfold serveProposeBlock at h2
    simp only at h2
    split at h2
    · simp only [Option.some.injEq, Prod.mk.injEq] at h2
      rw [← h2.1]
      exact ⟨rfl, le_refl _⟩
    · split at h2
      · simp at h2
      · split at h2
        · split at h2
          · simp at h2
          · split at h2
            · simp at h2
            · simp only [Option.some.injEq, Prod.mk.injEq] at h2
              rw [← h2.1]
              exact ⟨rfl, le_refl _⟩
        · simp only [Option.some.injEq, Prod.mk.injEq] at h2
          rw [← h2.1]
          exact ⟨rfl, le_refl _⟩
  | proposeBlockResponse =>
    left; simp only [serveStep, Option.some.injEq] at h; rw [← h]; exact ⟨rfl, le_refl _⟩
  | vote arg =>
    simp only [serveStep, Option.map_eq_some'] at h
    obtain ⟨⟨n2, b⟩, h2, h3⟩ := h
    simp only at h3
    subst h3
    rcases serveVote_cases env n n2 arg b h2 with ⟨h0, _⟩ |
      ⟨_, msg, v, ty, p, rest, X, ps1, lps1, hv, _, _, _, _, _, _, _, hn1⟩
    · left; rw [h0]; exact ⟨rfl, le_refl _⟩
    · rcases hn1 with hn1 | ⟨blk, hn1⟩
      · left; rw [hn1]; exact ⟨rfl, le_refl _⟩
      · right; left
        rw [hn1]
        refine ⟨rfl, ?_⟩
        show (n.blockchain ++ [blk]).length = n.blockchain.length + 1
        simp
  | voteResponse =>
    left; simp only [serveStep, Option.some.injEq] at h; rw [← h]; exact ⟨rfl, le_refl _⟩
  | requestBlockChain =>
    left; simp only [serveStep, Option.some.injEq] at h; rw [← h]; exact ⟨rfl, le_refl _⟩
  | requestBlockChainResponse bcr =>
    simp only [serveStep] at h
    unfold serveRequestBlockChainResponse at h
    split at h
    · left
      simp only [Option.some.injEq] at h
      rw [← h]
      exact ⟨rfl, le_refl _⟩
    · split at h
      · simp at h
      · simp only at h
        split at h
        · rename_i hlen
          right; right
          simp only [Option.some.injEq] at h
          rw [← h]
          exact ⟨rfl, hlen⟩
        · left
          simp only [Option.some.injEq] at h
          rw [← h]
          exact ⟨rfl, le_refl _⟩

theorem RoundInv_serveStep (env : Env) (n n1 : Node) (e : Event) (hI : RoundInv n)
    (h : serveStep env n e = some n1) : RoundInv n1 := by
  obtain ⟨i1, i2⟩ := hI
  rcases serveStep_round_cases env n n1 e h with ⟨h1, h2⟩ | ⟨h1, h2⟩ | ⟨h1, _⟩
  · refine ⟨by rw [h1]; exact i1, ?_⟩
    rw [h1]
    omega
  · refine ⟨by rw [h1]; exact minInt64_le_wrap64 _, ?_⟩
    rw [h1, h2]
    have := incr64_le _ i1
    push_cast
    omega
  · refine ⟨?_, by rw [h1]⟩
    rw [h1]
    unfold minInt64
    omega

theorem RoundInv_of_reachableOver (env : Env) (chain0 : List BlockPtr) (n : Node)
    (hne : chain0 ≠ []) (h : ReachableOver env chain0 n) : RoundInv n := by
  induction h with
  | init n h =>
    unfold startup at h
    split at h
    · simp at h
    · split at h
      · simp at h
      · simp only [Option.some.injEq] at h
        subst h
        refine ⟨?_, ?_⟩
        · show minInt64 ≤ (1 : Int)
          decide
        show (1 : Int) ≤ (chain0.length : Int)
        have : 0 < chain0.length := List.length_pos.mpr hne
        omega
  | step n n1 e _ h ih => exact RoundInv_serveStep env n n1 e ih h

/-- When the chain at startup has at least one block, the step is not lowered
by any pass of the loop that leaves round and period unchanged, and the only
pass that lowers it at an unchanged round is the step-5 period advance: a
catch-up then always raises the round. -/
theorem step_monotone_of_nonempty_start (env : Env) (chain0 : List BlockPtr) (n n1 : Node)
    (e : Event) (hne : chain0 ≠ []) (hn : ReachableOver env chain0 n)
    (h : serveStep env n e = some n1) (hround : n1.state.round = n.state.round) :
    (n1.state.period = n.state.period → n.state.step ≤ n1.state.step) ∧
    (n.state.step ≤ n1.state.step ∨
      (e = Event.agreementTimer ∧ n1.state.step = 1 ∧ n1.state.period = incr64 n.state.period ∧
        n1.state.period ≠ n.state.period)) := by
  have hI := RoundInv_of_reachableOver env chain0 n hne hn
  have hno : ¬ ∃ bcr ret, e = Event.requestBlockChainResponse bcr ∧ bcr.err = none ∧
      bcr.ret = some ret ∧ n.blockchain.length < ret.Blockchain.length ∧
      n1 = caughtUp n ret.Blockchain := by
    rintro ⟨bcr, ret, _, _, _, hlen, hn1⟩
    rw [hn1] at hround
    have hr : (ret.Blockchain.length : Int) = n.state.round := hround
    have := hI.2
    omega
  have hs := step_lowered_only_by env n n1 e h hround
  refine ⟨fun hp => ?_, ?_⟩
  · rcases hs.2 hp with h1 | h1
    · exact h1
    · exact absurd h1 hno
  · rcases hs.1 with h1 | h1 | h1
    · exact Or.inl h1
    · exact Or.inr h1
    · exact absurd h1 hno

/-- C13, the code at the failing input. The node starts over an empty chain,
runs steps 1 to 4 of period 1 of round 1, refuses a vote of round 2 and asks
its peers for their chains. The response carries a chain of one block: the
catch-up case adopts it and sets the round to the length of the chain, 1, the
period to 1 and the step to 1, so round and period are as before and the step
has gone from 4 to 1. On the halt path the same node with the same block
appended is in round 2. -/
theorem catch_up_lowers_step :
    serveRun sampleEnv sampleStart behindTrace = some afterBehind ∧
    afterBehind.blockchain = [] ∧
    afterBehind.state.round = 1 ∧ afterBehind.state.period = 1 ∧ afterBehind.state.step = 4 ∧
    serveStep sampleEnv afterBehind (Event.requestBlockChainResponse responseOfOne) =
      some (caughtUp afterBehind chainOfOne) ∧
    (caughtUp afterBehind chainOfOne).blockchain = chainOfOne ∧
    (caughtUp afterBehind chainOfOne).state.round = 1 ∧
    (caughtUp afterBehind chainOfOne).state.period = 1 ∧
    (caughtUp afterBehind chainOfOne).state.step = 1 ∧
    (handleHalt afterBehind blockOne).blockchain = chainOfOne ∧
    (handleHalt afterBehind blockOne).state.round = 2 := by
  decide

end Algorand
